import Mathlib

/-!
Shallow embedding of the nyxstack/dotenv parser core (tokenizer.go,
parser.go, dotenv.go).  Go strings are modelled as `List Char`; the Go
`Tokenizer` (content, pos, line) is modelled by the remaining input and the
1-based line counter (the column counter is tracked by the source but never
observable in any result or error, so it is omitted; `exportMode` is kept).
Fallible code returns `Except`.  The document loop, which in Go runs while
`pos < length`, is modelled with explicit fuel `length + 1`; the progress
lemma `parseLine_progress` below shows this fuel is never exhausted.
-/

namespace Dotenv

/-- Shorthand: the character list of a string literal. -/
def str (s : String) : List Char := s.data

/-- Parse errors of the core parser, each carrying the 1-based line number
the Go code puts into the error message (tokenizer.go / parser.go). -/
inductive ParseErr where
  | invalidKey (line : Nat)
  | expectedName (line : Nat)
  | missingAssign (line : Nat)
  | unterminated (line : Nat)
  | escapeEOF (line : Nat)
  deriving DecidableEq, Repr

/-- Tokenizer state: remaining input and 1-based line counter
(tokenizer.go, `Tokenizer`). -/
structure Tokenizer where
  rest : List Char
  line : Nat
  exportMode : Bool
  deriving DecidableEq, Repr

/-- tokenizer.go `NewTokenizer`: line 1, exportMode true. -/
def NewTokenizer (s : List Char) : Tokenizer := ⟨s, 1, true⟩

/-- tokenizer.go `peek`: byte at the cursor, 0 sentinel at end of input. -/
def peek (t : Tokenizer) : Char := t.rest.headD (Char.ofNat 0)

/-- tokenizer.go `advance`: consume one byte, bumping the line counter on a
line feed; no-op at end of input. -/
def advanceTok (t : Tokenizer) : Tokenizer :=
  match t.rest with
  | [] => t
  | c :: r => { t with rest := r, line := if c = '\n' then t.line + 1 else t.line }

/-- tokenizer.go `skipWhitespace`: drop spaces and tabs (never line feeds,
so the line counter is unchanged). -/
def skipWhitespace (t : Tokenizer) : Tokenizer :=
  { t with rest := t.rest.dropWhile fun c => c == ' ' || c == '\t' }

/-- tokenizer.go `skipToNextLine`: drop up to and including the next line
feed (one line consumed), or to end of input. -/
def skipToNextLine (t : Tokenizer) : Tokenizer :=
  match t.rest.dropWhile (fun c => c != '\n') with
  | [] => { t with rest := [] }
  | _ :: r => { t with rest := r, line := t.line + 1 }

/-- tokenizer.go `isValidKeyChar`. -/
def isValidKeyChar (c : Char) : Bool :=
  ('A' ≤ c && c ≤ 'Z') || ('a' ≤ c && c ≤ 'z') || ('0' ≤ c && c ≤ '9') || c == '_'

/-- tokenizer.go `isValidKeyStart`. -/
def isValidKeyStart (c : Char) : Bool :=
  ('A' ≤ c && c ≤ 'Z') || ('a' ≤ c && c ≤ 'z') || c == '_'

/-- tokenizer.go `parseKey`: the maximal run of key characters, provided the
first character is a valid key start (key characters are never line feeds,
so the line counter is unchanged). -/
def parseKey (t : Tokenizer) : Except ParseErr (List Char × Tokenizer) :=
  if isValidKeyStart (peek t) then
    .ok (t.rest.takeWhile isValidKeyChar,
         { t with rest := t.rest.dropWhile isValidKeyChar })
  else .error (.invalidKey t.line)

/-- tokenizer.go `parseUnquotedValue` loop body: consume bytes until a line
feed, carriage return or `#`; the `#` sets the has-comment flag and is not
consumed. -/
def unquotedSpan : List Char → List Char × Bool × List Char
  | [] => ([], false, [])
  | c :: rest =>
    if c = '\n' ∨ c = '\r' then ([], false, c :: rest)
    else if c = '#' then ([], true, c :: rest)
    else
      let (v, hc, r) := unquotedSpan rest
      (c :: v, hc, r)

/-- Go `strings.TrimRight(s, " \t")`. -/
def trimRightWS (l : List Char) : List Char :=
  (l.reverse.dropWhile fun c => c == ' ' || c == '\t').reverse

/-- tokenizer.go `parseUnquotedValue`: span until newline / CR / `#`, then
trim trailing spaces and tabs only (no line feed is ever consumed, so the
line counter is unchanged). -/
def parseUnquotedValue (t : Tokenizer) : List Char × Bool × Tokenizer :=
  let (v, hc, r) := unquotedSpan t.rest
  (trimRightWS v, hc, { t with rest := r })

/-- tokenizer.go `parseQuotedValue` escape switch (double quotes only):
`\n` `\t` `\r` `\\` `\"` `\'` translate to their byte values, any other
escaped character is emitted as backslash plus the character. -/
def escTranslate (e : Char) : List Char :=
  if e = 'n' then ['\n']
  else if e = 't' then ['\t']
  else if e = 'r' then ['\r']
  else if e = '\\' then ['\\']
  else if e = '"' then ['"']
  else if e = '\'' then ['\'']
  else ['\\', e]

/-- tokenizer.go `parseQuotedValue` main loop, after the opening quote has
been consumed: accumulates content bytes (threading the line counter),
closes on the quote character, handles backslash escapes in double quotes,
and reports `unterminated` (resp. `escapeEOF` after a dangling backslash)
with the line counter's value at end of input.  Fuel ≥ input length; every
step consumes at least one character, so the fuel-0-with-input-left arm is
unreachable from `parseQuotedValue` (see `quotedSpanGo_fuel`). -/
def quotedSpanGo (quote : Char) : Nat → List Char → Nat → Except ParseErr (List Char × List Char × Nat)
  | _, [], line => .error (.unterminated line)
  | 0, _ :: _, line => .error (.unterminated line)
  | fuel + 1, c :: rest, line =>
    if c = quote then .ok ([], rest, line)
    else if c = '\\' ∧ quote = '"' then
      match rest with
      | [] => .error (.escapeEOF line)
      | e :: rest2 =>
        match quotedSpanGo quote fuel rest2 (if e = '\n' then line + 1 else line) with
        | .ok (v, r, l) => .ok (escTranslate e ++ v, r, l)
        | .error err => .error err
    else
      match quotedSpanGo quote fuel rest (if c = '\n' then line + 1 else line) with
      | .ok (v, r, l) => .ok (c :: v, r, l)
      | .error err => .error err

/-- The quoted-content loop at its natural fuel. -/
def quotedSpan (quote : Char) (l : List Char) (line : Nat) :
    Except ParseErr (List Char × List Char × Nat) :=
  quotedSpanGo quote l.length l line

/-- tokenizer.go `parseQuotedValue`: consume the opening quote, then run the
content loop. -/
def parseQuotedValue (quote : Char) (t : Tokenizer) : Except ParseErr (List Char × Tokenizer) :=
  let t1 := advanceTok t
  match quotedSpan quote t1.rest t1.line with
  | .ok (v, r, l) => .ok (v, { t1 with rest := r, line := l })
  | .error e => .error e

/-- The environment mapping (a Go `map[string]string`), modelled as an
association list with unique keys; only its lookups are observable. -/
abbrev EnvMap : Type := List (List Char × List Char)

/-- Go map read `env[k]`. -/
def lookupEnv (env : EnvMap) (k : List Char) : Option (List Char) :=
  (List.find? (fun p => p.1 == k) env).map (fun p => p.2)

/-- Go map write `env[k] = v`: overwrite an existing binding, else append. -/
def insertEnv (env : EnvMap) (k v : List Char) : EnvMap :=
  match env with
  | [] => [(k, v)]
  | (k', v') :: rest => if k' = k then (k, v) :: rest else (k', v') :: insertEnv rest k v

/-- tokenizer.go `expandVariables`, pass 1 regex `\$\{ident\}` applied at the
text just after a `${`: the maximal identifier run, which must be followed
by `}`. -/
def matchBracedRef (l : List Char) : Option (List Char × List Char) :=
  if isValidKeyStart (l.headD (Char.ofNat 0)) then
    match l.dropWhile isValidKeyChar with
    | '}' :: r => some (l.takeWhile isValidKeyChar, r)
    | _ => none
  else none

/-- tokenizer.go `expandVariables`, pass 2 regex `\$ident` applied at the
text just after a `$`: the maximal identifier run. -/
def matchBareRef (l : List Char) : Option (List Char × List Char) :=
  if isValidKeyStart (l.headD (Char.ofNat 0)) then
    some (l.takeWhile isValidKeyChar, l.dropWhile isValidKeyChar)
  else none

/-- tokenizer.go `expandVariables` pass 1 (`ReplaceAllStringFunc` with the
braced pattern): leftmost non-overlapping matches, each replaced by the
mapping's value if the name is bound (else kept verbatim), scanning
resuming after the match so replacements are never re-scanned by this pass.
Fuel ≥ input length; every step consumes at least one character. -/
def expandBracedGo (env : EnvMap) : Nat → List Char → List Char
  | 0, l => l
  | _ + 1, [] => []
  | fuel + 1, c :: rest =>
    if c = '$' then
      match rest with
      | d :: r2 =>
        if d = '{' then
          match matchBracedRef r2 with
          | some (name, suffix) =>
            (match lookupEnv env name with
             | some v => v
             | none => '$' :: '{' :: (name ++ ['}'])) ++ expandBracedGo env fuel suffix
          | none => '$' :: expandBracedGo env fuel rest
        else '$' :: expandBracedGo env fuel rest
      | [] => '$' :: expandBracedGo env fuel []
    else c :: expandBracedGo env fuel rest

/-- tokenizer.go `expandVariables` pass 2 (`ReplaceAllStringFunc` with the
bare pattern), same replacement discipline. -/
def expandSimpleGo (env : EnvMap) : Nat → List Char → List Char
  | 0, l => l
  | _ + 1, [] => []
  | fuel + 1, c :: rest =>
    if c = '$' then
      match matchBareRef rest with
      | some (name, suffix) =>
        (match lookupEnv env name with
         | some v => v
         | none => '$' :: name) ++ expandSimpleGo env fuel suffix
      | none => '$' :: expandSimpleGo env fuel rest
    else c :: expandSimpleGo env fuel rest

/-- Pass 1 of `expandVariables` at its natural fuel. -/
def expandBraced (env : EnvMap) (l : List Char) : List Char :=
  expandBracedGo env l.length l

/-- Pass 2 of `expandVariables` at its natural fuel. -/
def expandSimple (env : EnvMap) (l : List Char) : List Char :=
  expandSimpleGo env l.length l

/-- tokenizer.go `expandVariables`: the braced pass first, then the bare
pass over the braced pass's result. -/
def expandVariables (value : List Char) (env : EnvMap) : List Char :=
  expandSimple env (expandBraced env value)

/-- parser.go `LineResult`. -/
structure LineResult where
  key : List Char
  value : List Char
  allowExpansion : Bool
  error : Option ParseErr
  deriving DecidableEq, Repr

/-- parser.go `ParseLine` line 52: `strings.HasPrefix(content[pos:], "export ")`. -/
def isExportLine (l : List Char) : Bool :=
  match l with
  | c1 :: c2 :: c3 :: c4 :: c5 :: c6 :: c7 :: _ =>
    c1 == 'e' && c2 == 'x' && c3 == 'p' && c4 == 'o' && c5 == 'r' && c6 == 't' && c7 == ' '
  | _ => false

/-- parser.go `ParseLine` lines 112-118: after the value, skip trailing
whitespace and a trailing `#` comment, and assemble the `LineResult`. -/
def lineFinish (key v : List Char) (allow : Bool) (t : Tokenizer) : LineResult × Tokenizer :=
  let t1 := skipWhitespace t
  let t2 := if ¬t1.rest.isEmpty ∧ peek t1 = '#' then skipToNextLine t1 else t1
  ({ key := key, value := v, allowExpansion := allow, error := none }, t2)

/-- parser.go `ParseLine` lines 85-110: the value branch, entered with the
cursor just after the whitespace following `=`.  Double quote: expansion
allowed; single quote: expansion blocked; otherwise unquoted (expansion
allowed) with an immediate skip past a trailing comment. -/
def parseValueBranch (key : List Char) (t3 : Tokenizer) : LineResult × Tokenizer :=
  if peek t3 = '"' then
    match parseQuotedValue '"' t3 with
    | .error e => ({ key := [], value := [], allowExpansion := false, error := some e }, t3)
    | .ok (v, t4) => lineFinish key v true t4
  else if peek t3 = '\'' then
    match parseQuotedValue '\'' t3 with
    | .error e => ({ key := [], value := [], allowExpansion := false, error := some e }, t3)
    | .ok (v, t4) => lineFinish key v false t4
  else
    let (v, hc, t4) := parseUnquotedValue t3
    let t5 := if hc then skipToNextLine t4 else t4
    lineFinish key v true t5

/-- parser.go `ParseLine` lines 63-110: after a successful key parse — the
(dead) empty-key guard, whitespace, the mandatory `=`, whitespace, then the
value branch. -/
def parseAfterKey (key : List Char) (t1 : Tokenizer) : LineResult × Tokenizer :=
  if key.isEmpty then
    ({ key := [], value := [], allowExpansion := false,
       error := some (.expectedName t1.line) }, t1)
  else
    let t2 := skipWhitespace t1
    if peek t2 ≠ '=' then
      ({ key := [], value := [], allowExpansion := false,
         error := some (.missingAssign t2.line) }, t2)
    else
      parseValueBranch key (skipWhitespace (advanceTok t2))

/-- parser.go `ParseLine` lines 51-56: skip the literal `export ` prefix
(7 characters, no line feed among them) and the whitespace after it, when
export mode is on and the prefix is present. -/
def exportSkip (t : Tokenizer) : Tokenizer :=
  if t.exportMode ∧ isExportLine t.rest then
    skipWhitespace { t with rest := t.rest.drop 7 }
  else t

/-- parser.go `ParseLine` lines 51-110: the optional `export ` prefix,
then the key and the rest of the line. -/
def parseKeyStage (t : Tokenizer) : LineResult × Tokenizer :=
  match parseKey (exportSkip t) with
  | .error e =>
    ({ key := [], value := [], allowExpansion := false, error := some e }, exportSkip t)
  | .ok (key, t1) => parseAfterKey key t1

/-- parser.go `ParseLine`: one logical line (blank/comment skip, optional
`export ` prefix, key, `=`, quoted or unquoted value, trailing comment). -/
def ParseLine (t0 : Tokenizer) : LineResult × Tokenizer :=
  let t := skipWhitespace t0
  if t.rest.isEmpty ∨ peek t = '\n' ∨ peek t = '\r' ∨ peek t = '#' then
    ({ key := [], value := [], allowExpansion := false, error := none }, skipToNextLine t)
  else
    parseKeyStage t

/-- parser.go `Parse` document loop, with explicit fuel (the Go loop runs
while input remains; `parseLine_progress` shows fuel `length + 1` always
suffices).  The first error aborts; empty keys are skipped; otherwise the
value is expanded against the mapping built so far when expansion is
allowed and the value contains a `$`, and the key is inserted. -/
def parseLoop (env : EnvMap) : Nat → Tokenizer → Except ParseErr EnvMap
  | 0, _ => .ok env
  | fuel + 1, t =>
    if t.rest.isEmpty then .ok env
    else
      let (r, t') := ParseLine t
      match r.error with
      | some e => .error e
      | none =>
        if r.key.isEmpty then parseLoop env fuel t'
        else
          let value :=
            if r.allowExpansion ∧ r.value.any (fun c => c == '$') then
              expandVariables r.value env
            else r.value
          parseLoop (insertEnv env r.key value) fuel t'

/-- parser.go `Parse` on a fresh parser (`NewParser` / `NewTokenizer`). -/
def Parse (s : List Char) : Except ParseErr EnvMap :=
  parseLoop [] (s.length + 1) (NewTokenizer s)

/-- dotenv.go `needsQuoting` character switch. -/
def isSpecialChar (c : Char) : Bool :=
  c == ' ' || c == '\t' || c == '\n' || c == '\r' || c == '"' || c == '\'' ||
    c == '\\' || c == '#' || c == '$'

/-- dotenv.go `needsQuoting`: empty values are not quoted; otherwise quote
when any character is a space, tab, newline, CR, quote, backslash, `#` or
`$`. -/
def needsQuoting (v : List Char) : Bool :=
  if v.isEmpty then false else v.any isSpecialChar

/-- Go `strings.ReplaceAll` with a single-character pattern. -/
def replCh (target : Char) (repl : List Char) : List Char → List Char
  | [] => []
  | c :: rest => (if c = target then repl else [c]) ++ replCh target repl rest

/-- dotenv.go `quoteValue` body: the five sequential `ReplaceAll` calls —
backslashes first, then double quotes, newlines, tabs, carriage returns. -/
def escChain (l : List Char) : List Char :=
  replCh '\r' ['\\', 'r']
    (replCh '\t' ['\\', 't']
      (replCh '\n' ['\\', 'n']
        (replCh '"' ['\\', '"']
          (replCh '\\' ['\\', '\\'] l))))

/-- The per-character effect of `escChain` (`escChain_eq` below shows the
sequential replacements amount to this character map). -/
def esc1 (c : Char) : List Char :=
  if c = '\\' then ['\\', '\\']
  else if c = '"' then ['\\', '"']
  else if c = '\n' then ['\\', 'n']
  else if c = '\t' then ['\\', 't']
  else if c = '\r' then ['\\', 'r']
  else [c]

/-- dotenv.go `quoteValue`: escape backslashes first, then double quotes,
newlines, tabs and carriage returns, and wrap in double quotes. -/
def quoteValue (v : List Char) : List Char :=
  '"' :: escChain v ++ ['"']

/-- Go byte-wise string comparison `a <= b` (used by the key sort in
dotenv.go `WriteEnvFile`). -/
def leChars : List Char → List Char → Bool
  | [], _ => true
  | _ :: _, [] => false
  | a :: as, b :: bs =>
    if a.toNat < b.toNat then true
    else if b.toNat < a.toNat then false
    else leChars as bs

/-- Ascending-by-key order on entries (the exchange sort in dotenv.go
`WriteEnvFile` lines 171-177 produces exactly the ascending key order;
keys of a map are distinct, so sorting the entries by key is the same as
sorting the keys and looking each one up). -/
def keyLe (p q : List Char × List Char) : Prop := leChars p.1 q.1 = true

instance : DecidableRel keyLe := fun p q => inferInstanceAs (Decidable (leChars p.1 q.1 = true))

/-- The entries in ascending key order. -/
def sortPairs (env : EnvMap) : EnvMap := List.insertionSort keyLe env

/-- Go `strings.Join(lines, "\n")`. -/
def joinLines : List (List Char) → List Char
  | [] => []
  | [l] => l
  | l :: rest => l ++ '\n' :: joinLines rest

/-- The serialized form of one entry: `KEY=value` with the value quoted
when `needsQuoting` says so (dotenv.go `WriteEnvFile` loop body). -/
def encPair (p : List Char × List Char) : List Char :=
  p.1 ++ '=' :: (if needsQuoting p.2 then quoteValue p.2 else p.2)

/-- dotenv.go `WriteEnvFile`, minus the file write: sort the keys, emit
`KEY=value` lines joined by newlines, with a final newline when the content
is non-empty. -/
def serializeEnv (env : EnvMap) : List Char :=
  let content := joinLines ((sortPairs env).map encPair)
  if content.isEmpty then [] else content ++ ['\n']

instance {ε α : Type} [DecidableEq ε] [DecidableEq α] : DecidableEq (Except ε α) := fun a b =>
  match a, b with
  | .ok x, .ok y => decidable_of_iff (x = y) (by constructor <;> (intro h; cases h; rfl))
  | .error x, .error y => decidable_of_iff (x = y) (by constructor <;> (intro h; cases h; rfl))
  | .ok _, .error _ => .isFalse (by intro h; cases h)
  | .error _, .ok _ => .isFalse (by intro h; cases h)


/-- A well-formed key, exactly as tokenizer.go `parseKey` accepts it:
non-empty, a valid start character, then key characters only. -/
def validKey (k : List Char) : Bool :=
  match k with
  | [] => false
  | c :: rest => isValidKeyStart c && rest.all isValidKeyChar

/-- No control characters (ASCII below 32). -/
def noCtl (v : List Char) : Bool := v.all (fun c => 32 ≤ c.toNat)

/-- No `$` character. -/
def noDollar (v : List Char) : Bool := v.all (fun c => !(c == '$'))

/-- The serialized document as a flat concatenation of `line ++ "\n"`
blocks; `serializeEnv_eq_encAll` shows `serializeEnv` produces exactly
this. -/
def encAll : EnvMap → List Char
  | [] => []
  | p :: rest => encPair p ++ '\n' :: encAll rest

/-! ### Basic length bookkeeping -/

theorem length_dropWhile_le (p : Char → Bool) (l : List Char) :
    (l.dropWhile p).length ≤ l.length := by
  induction l with
  | nil => simp [List.dropWhile]
  | cons c rest ih =>
    simp only [List.dropWhile]
    split
    · exact le_trans ih (Nat.le_succ _)
    · exact le_refl _

theorem length_dropWhile_cons_lt (p : Char → Bool) (c : Char) (l : List Char)
    (h : p c = true) : ((c :: l).dropWhile p).length < (c :: l).length := by
  simp only [List.dropWhile, h]
  exact Nat.lt_succ_of_le (length_dropWhile_le p l)

theorem skipWhitespace_rest_le (t : Tokenizer) :
    (skipWhitespace t).rest.length ≤ t.rest.length :=
  length_dropWhile_le _ _

theorem skipToNextLine_rest_le (t : Tokenizer) :
    (skipToNextLine t).rest.length ≤ t.rest.length := by
  have hlen := length_dropWhile_le (fun c => c != '\n') t.rest
  unfold skipToNextLine
  rcases hd : t.rest.dropWhile (fun c => c != '\n') with _ | ⟨c, r⟩
  · dsimp only
    exact Nat.zero_le _
  · dsimp only
    rw [hd] at hlen
    simp only [List.length_cons] at hlen
    omega

theorem skipToNextLine_rest_lt (t : Tokenizer) (h : t.rest ≠ []) :
    (skipToNextLine t).rest.length < t.rest.length := by
  have hlen := length_dropWhile_le (fun c => c != '\n') t.rest
  have hpos : 0 < t.rest.length := List.length_pos.mpr h
  unfold skipToNextLine
  rcases hd : t.rest.dropWhile (fun c => c != '\n') with _ | ⟨c, r⟩
  · dsimp only
    exact hpos
  · dsimp only
    rw [hd] at hlen
    simp only [List.length_cons] at hlen
    omega

theorem advanceTok_rest_le (t : Tokenizer) :
    (advanceTok t).rest.length ≤ t.rest.length := by
  unfold advanceTok
  rcases ht : t.rest with _ | ⟨c, r⟩
  · dsimp only
    rw [ht]
  · dsimp only
    simp only [List.length_cons]
    omega

theorem unquotedSpan_rest_le (l : List Char) :
    (unquotedSpan l).2.2.length ≤ l.length := by
  induction l with
  | nil => simp [unquotedSpan]
  | cons c rest ih =>
    simp only [unquotedSpan]
    split
    · simp
    · split
      · simp
      · simpa using le_trans ih (Nat.le_succ _)

theorem quotedSpanGo_rest_le (quote : Char) :
    ∀ (fuel : Nat) (l : List Char) (line : Nat) v r l',
      quotedSpanGo quote fuel l line = .ok (v, r, l') → r.length ≤ l.length := by
  intro fuel
  induction fuel with
  | zero =>
    intro l line v r l' h
    rcases l with _ | ⟨c, rest⟩ <;> simp [quotedSpanGo] at h
  | succ n ih =>
    intro l line v r l' h
    rcases l with _ | ⟨c, rest⟩
    · simp [quotedSpanGo] at h
    by_cases h1 : c = quote
    · simp only [quotedSpanGo, if_pos h1, Except.ok.injEq, Prod.mk.injEq] at h
      rcases h with ⟨-, h2, -⟩
      simp [← h2]
    by_cases h2 : c = '\\' ∧ quote = '"'
    · rcases rest with _ | ⟨e, rest2⟩
      · simp [quotedSpanGo, if_neg h1, if_pos h2] at h
      · rcases hq : quotedSpanGo quote n rest2 (if e = '\n' then line + 1 else line) with
          e2 | ⟨v0, r0, l0⟩
        · simp [quotedSpanGo, if_neg h1, if_pos h2, hq] at h
        · simp only [quotedSpanGo, if_neg h1, if_pos h2, hq, Except.ok.injEq,
            Prod.mk.injEq] at h
          rcases h with ⟨-, h3, -⟩
          have := ih rest2 _ _ _ _ hq
          rw [← h3]
          simp only [List.length_cons]
          omega
    · rcases hq : quotedSpanGo quote n rest (if c = '\n' then line + 1 else line) with
        e2 | ⟨v0, r0, l0⟩
      · simp [quotedSpanGo, if_neg h1, if_neg h2, hq] at h
      · simp only [quotedSpanGo, if_neg h1, if_neg h2, hq, Except.ok.injEq,
          Prod.mk.injEq] at h
        rcases h with ⟨-, h3, -⟩
        have := ih rest _ _ _ _ hq
        rw [← h3]
        simp only [List.length_cons]
        omega

theorem parseQuotedValue_rest_le (quote : Char) (t : Tokenizer) (v : List Char)
    (t' : Tokenizer) (h : parseQuotedValue quote t = .ok (v, t')) :
    t'.rest.length ≤ t.rest.length := by
  rcases hq : quotedSpan quote (advanceTok t).rest (advanceTok t).line with e | ⟨v0, r0, l0⟩
  · simp [parseQuotedValue, hq] at h
  · simp only [parseQuotedValue, hq, Except.ok.injEq, Prod.mk.injEq] at h
    rcases h with ⟨-, h2⟩
    have hle := quotedSpanGo_rest_le quote _ _ _ _ _ _ hq
    have hadv := advanceTok_rest_le t
    rw [← h2]
    simp only []
    omega

theorem keyStart_keyChar {c : Char} (h : isValidKeyStart c = true) :
    isValidKeyChar c = true := by
  simp [isValidKeyStart, Bool.or_eq_true] at h
  simp [isValidKeyChar, Bool.or_eq_true]
  tauto

theorem nulKeyStart : isValidKeyStart (Char.ofNat 0) = false := by decide

theorem parseKey_ok_rest {t : Tokenizer} {k : List Char} {t' : Tokenizer}
    (h : parseKey t = .ok (k, t')) :
    isValidKeyStart (peek t) = true ∧ k = t.rest.takeWhile isValidKeyChar ∧
      t' = { t with rest := t.rest.dropWhile isValidKeyChar } := by
  unfold parseKey at h
  split at h
  · simp at h
    exact ⟨by assumption, h.1.symm, h.2.symm⟩
  · simp at h

theorem parseKey_ok_rest_lt {t : Tokenizer} {k : List Char} {t' : Tokenizer}
    (h : parseKey t = .ok (k, t')) : t'.rest.length < t.rest.length := by
  obtain ⟨hs, -, ht'⟩ := parseKey_ok_rest h
  rcases ht : t.rest with _ | ⟨c, r⟩
  · rw [peek, ht] at hs
    simp at hs
    exact absurd hs (by decide)
  · rw [peek, ht] at hs
    simp at hs
    subst ht'
    simp only []
    rw [ht]
    exact length_dropWhile_cons_lt _ _ _ (keyStart_keyChar hs)

theorem lineFinish_rest_le (key v : List Char) (a : Bool) (t : Tokenizer) :
    (lineFinish key v a t).2.rest.length ≤ t.rest.length := by
  unfold lineFinish
  simp only []
  split
  · exact le_trans (skipToNextLine_rest_le _) (skipWhitespace_rest_le _)
  · exact skipWhitespace_rest_le _

theorem parseValueBranch_rest_le (key : List Char) (t3 : Tokenizer) :
    (parseValueBranch key t3).2.rest.length ≤ t3.rest.length := by
  unfold parseValueBranch
  split
  · rcases hq : parseQuotedValue '"' t3 with e | ⟨v, t4⟩ <;> simp only [hq]
    · exact le_refl _
    · exact le_trans (lineFinish_rest_le _ _ _ _) (parseQuotedValue_rest_le _ _ _ _ hq)
  split
  · rcases hq : parseQuotedValue '\'' t3 with e | ⟨v, t4⟩ <;> simp only [hq]
    · exact le_refl _
    · exact le_trans (lineFinish_rest_le _ _ _ _) (parseQuotedValue_rest_le _ _ _ _ hq)
  · simp only [parseUnquotedValue]
    have h4 : (unquotedSpan t3.rest).2.2.length ≤ t3.rest.length := unquotedSpan_rest_le _
    split
    · exact le_trans (lineFinish_rest_le _ _ _ _)
        (le_trans (skipToNextLine_rest_le _) h4)
    · exact le_trans (lineFinish_rest_le _ _ _ _) h4

theorem parseAfterKey_rest_le (key : List Char) (t1 : Tokenizer) :
    (parseAfterKey key t1).2.rest.length ≤ t1.rest.length := by
  unfold parseAfterKey
  split
  · exact le_refl _
  dsimp only
  split
  · exact skipWhitespace_rest_le _
  · exact le_trans (parseValueBranch_rest_le _ _)
      (le_trans (skipWhitespace_rest_le _)
        (le_trans (advanceTok_rest_le _) (skipWhitespace_rest_le _)))

theorem exportSkip_rest_le (t : Tokenizer) :
    (exportSkip t).rest.length ≤ t.rest.length := by
  unfold exportSkip
  split
  · refine le_trans (skipWhitespace_rest_le _) ?_
    simp only []
    rw [List.length_drop]
    omega
  · exact le_refl _

theorem parseKeyStage_progress (t : Tokenizer) :
    (parseKeyStage t).1.error.isSome = true ∨
      (parseKeyStage t).2.rest.length < t.rest.length := by
  unfold parseKeyStage
  have ht2 := exportSkip_rest_le t
  rcases hk : parseKey (exportSkip t) with e | ⟨k, t3⟩
  · left
    simp [hk]
  · right
    simp only [hk]
    have h3 := parseKey_ok_rest_lt hk
    have h4 := parseAfterKey_rest_le k t3
    omega

theorem parseLine_progress (t : Tokenizer) (hne : t.rest ≠ []) :
    (ParseLine t).1.error.isSome = true ∨
      (ParseLine t).2.rest.length < t.rest.length := by
  unfold ParseLine
  dsimp only
  split
  · right
    dsimp only
    have h1 := skipToNextLine_rest_le (skipWhitespace t)
    have hpos := List.length_pos.mpr hne
    have h3 := skipWhitespace_rest_le t
    by_cases hsw : (skipWhitespace t).rest = []
    · rw [hsw] at h1
      simp only [List.length_nil, Nat.le_zero] at h1
      omega
    · have h2 := skipToNextLine_rest_lt _ hsw
      omega
  · rcases parseKeyStage_progress (skipWhitespace t) with h | h
    · left; exact h
    · right
      exact lt_of_lt_of_le h (skipWhitespace_rest_le t)

theorem parseLoop_fuel : ∀ (f1 f2 : Nat) (t : Tokenizer) (env : EnvMap),
    t.rest.length < f1 → t.rest.length < f2 →
    parseLoop env f1 t = parseLoop env f2 t := by
  intro f1
  induction f1 with
  | zero => intro f2 t env h1 h2; omega
  | succ n ih =>
    intro f2 t env h1 h2
    rcases f2 with _ | m
    · omega
    simp only [parseLoop]
    by_cases he : t.rest.isEmpty = true
    · rw [if_pos he, if_pos he]
    rw [if_neg he, if_neg he]
    have hne : t.rest ≠ [] := by
      intro hnil
      rw [hnil] at he
      simp at he
    rcases hP : ParseLine t with ⟨lr, t'⟩
    dsimp only
    rcases hE : lr.error with _ | e
    · have hprog : t'.rest.length < t.rest.length := by
        rcases parseLine_progress t hne with h | h
        · rw [hP, hE] at h
          simp at h
        · rw [hP] at h
          exact h
      have hlt1 : t'.rest.length < n := by
        have : 0 < t.rest.length := List.length_pos.mpr hne
        omega
      have hlt2 : t'.rest.length < m := by
        have : 0 < t.rest.length := List.length_pos.mpr hne
        omega
      dsimp only
      by_cases hk : lr.key.isEmpty = true
      · rw [if_pos hk, if_pos hk]
        exact ih m t' env hlt1 hlt2
      · rw [if_neg hk, if_neg hk]
        exact ih m t' _ hlt1 hlt2
    · dsimp only

/-! ### Keys of the output mapping -/

theorem parseLine_empty_rest (t : Tokenizer) (h : t.rest = []) :
    (ParseLine t).1.error = none := by
  have hcond : (skipWhitespace t).rest.isEmpty = true ∨ peek (skipWhitespace t) = '\n' ∨
      peek (skipWhitespace t) = '\r' ∨ peek (skipWhitespace t) = '#' := by
    left
    simp [skipWhitespace, h]
  unfold ParseLine
  dsimp only
  rw [if_pos hcond]

theorem lineFinish_fst (key v : List Char) (a : Bool) (t : Tokenizer) :
    (lineFinish key v a t).1 =
      { key := key, value := v, allowExpansion := a, error := none } := by
  unfold lineFinish
  dsimp only

theorem parseValueBranch_key (k : List Char) (t3 : Tokenizer) :
    (parseValueBranch k t3).1.key = [] ∨ (parseValueBranch k t3).1.key = k := by
  unfold parseValueBranch
  split
  · rcases hq : parseQuotedValue '"' t3 with e | ⟨v, t4⟩
    · simp [hq]
    · simp only [hq]
      right
      rw [lineFinish_fst]
  split
  · rcases hq : parseQuotedValue '\'' t3 with e | ⟨v, t4⟩
    · simp [hq]
    · simp only [hq]
      right
      rw [lineFinish_fst]
  · dsimp only
    right
    rw [lineFinish_fst]

theorem parseAfterKey_key (k : List Char) (t1 : Tokenizer) :
    (parseAfterKey k t1).1.key = [] ∨ (parseAfterKey k t1).1.key = k := by
  unfold parseAfterKey
  split
  · left; rfl
  dsimp only
  split
  · left; rfl
  · exact parseValueBranch_key k _

theorem all_takeWhile (p : Char → Bool) (l : List Char) :
    (l.takeWhile p).all p = true := by
  induction l with
  | nil => rfl
  | cons c rest ih =>
    simp only [List.takeWhile]
    rcases hp : p c with _ | _
    · rfl
    · simp [hp, ih]

theorem parseKey_valid {t : Tokenizer} {k : List Char} {t' : Tokenizer}
    (h : parseKey t = .ok (k, t')) : validKey k = true := by
  obtain ⟨hs, hk, -⟩ := parseKey_ok_rest h
  rcases ht : t.rest with _ | ⟨c, r⟩
  · rw [peek, ht] at hs
    simp at hs
    exact absurd hs (by decide)
  · rw [peek, ht] at hs
    simp at hs
    rw [ht] at hk
    rw [List.takeWhile] at hk
    rw [keyStart_keyChar hs] at hk
    subst hk
    simp only [validKey, Bool.and_eq_true]
    exact ⟨hs, all_takeWhile _ _⟩

theorem parseLine_key (t : Tokenizer) :
    (ParseLine t).1.key = [] ∨ validKey (ParseLine t).1.key = true := by
  unfold ParseLine
  dsimp only
  split
  · left; rfl
  · unfold parseKeyStage
    rcases hk : parseKey (exportSkip (skipWhitespace t)) with e | ⟨k, t3⟩ <;> simp only [hk]
    · left; trivial
    · rcases parseAfterKey_key k t3 with h | h
      · left; exact h
      · right
        rw [h]
        exact parseKey_valid hk

theorem insertEnv_mem {env : EnvMap} {k v : List Char} {p : List Char × List Char}
    (h : p ∈ insertEnv env k v) : p ∈ env ∨ p = (k, v) := by
  induction env with
  | nil =>
    simp [insertEnv] at h
    right; exact h
  | cons q rest ih =>
    rcases q with ⟨k', v'⟩
    simp only [insertEnv] at h
    split at h
    · rcases List.mem_cons.mp h with h1 | h1
      · right; exact h1
      · left; exact List.mem_cons_of_mem _ h1
    · rcases List.mem_cons.mp h with h1 | h1
      · left; exact h1 ▸ List.mem_cons_self _ _
      · rcases ih h1 with h2 | h2
        · left; exact List.mem_cons_of_mem _ h2
        · right; exact h2

theorem parseLoop_keys : ∀ (fuel : Nat) (t : Tokenizer) (env out : EnvMap),
    (∀ p ∈ env, validKey p.1 = true) → parseLoop env fuel t = .ok out →
    ∀ p ∈ out, validKey p.1 = true := by
  intro fuel
  induction fuel with
  | zero =>
    intro t env out henv h
    simp only [parseLoop] at h
    cases h
    exact henv
  | succ n ih =>
    intro t env out henv h
    simp only [parseLoop] at h
    by_cases he : t.rest.isEmpty = true
    · rw [if_pos he] at h
      cases h
      exact henv
    rw [if_neg he] at h
    rcases hP : ParseLine t with ⟨lr, t'⟩
    rw [hP] at h
    dsimp only at h
    rcases hE : lr.error with _ | e <;> rw [hE] at h
    · by_cases hk : lr.key.isEmpty = true
      · rw [if_pos hk] at h
        exact ih t' env out henv h
      · rw [if_neg hk] at h
        refine ih t' _ out ?_ h
        intro p hp
        rcases insertEnv_mem hp with h1 | h1
        · exact henv p h1
        · rw [h1]
          rcases parseLine_key t with h2 | h2 <;> rw [hP] at h2 <;> dsimp only at h2
          · rw [h2] at hk
            simp at hk
          · exact h2
    · cases h

/-! ### Claim theorems: error propagation, totality, key invariant -/

/-- Claim C7: all-or-nothing error propagation.  Whenever a line parse
produces an error, the document loop returns exactly that error — an
`Except.error` carries no mapping, so no partial mapping of earlier lines
is returned, and the remaining input (inside `t`) is never examined: the
result is `.error e` no matter what follows and whatever was accumulated
in `env`. -/
theorem first_error_aborts_parse (fuel : Nat) (t : Tokenizer) (env : EnvMap) (e : ParseErr)
    (h : (ParseLine t).1.error = some e) :
    parseLoop env (fuel + 1) t = .error e := by
  by_cases hne : t.rest = []
  · rw [parseLine_empty_rest t hne] at h
    cases h
  · simp only [parseLoop]
    have he : ¬t.rest.isEmpty = true := by simpa using hne
    rw [if_neg he]
    rcases hP : ParseLine t with ⟨lr, t'⟩
    have hE : lr.error = some e := by rw [hP] at h; exact h
    dsimp only
    rw [hE]

/-- Witness for C7 at a concrete input: the first line of
`"K x\nA=1"` has no `=` after the key, and the document parse returns
exactly that error. -/
theorem first_error_aborts_parse_witness :
    parseLoop [] 8 (NewTokenizer (str "K x\nA=1")) =
      .error (.missingAssign 1) :=
  first_error_aborts_parse 7 (NewTokenizer (str "K x\nA=1")) []
    (.missingAssign 1) (by decide)

/-- Claim C8: totality.  Every successful (non-erroring) call of
`ParseLine` on remaining input strictly shrinks the remaining input, so the
document loop is well-founded on the input length; consequently the loop's
result is independent of the fuel once the fuel exceeds the input length,
and `Parse` (fuel `length + 1`) is a total function returning a mapping or
an error. -/
theorem parse_terminates_or_errors :
    (∀ t : Tokenizer, t.rest ≠ [] →
      (ParseLine t).1.error.isSome = true ∨
        (ParseLine t).2.rest.length < t.rest.length) ∧
    (∀ (s : List Char) (fuel : Nat), s.length < fuel →
      parseLoop [] fuel (NewTokenizer s) = Parse s) :=
  ⟨parseLine_progress, fun s fuel h =>
    parseLoop_fuel fuel (s.length + 1) (NewTokenizer s) [] h (Nat.lt_succ_self _)⟩

/-- Witness for C8 at a concrete input. -/
theorem parse_terminates_or_errors_witness :
    ((ParseLine (NewTokenizer (str "A=1"))).1.error.isSome = true ∨
      (ParseLine (NewTokenizer (str "A=1"))).2.rest.length <
        (NewTokenizer (str "A=1")).rest.length) ∧
    parseLoop [] 9 (NewTokenizer (str "A=1")) = Parse (str "A=1") :=
  ⟨parse_terminates_or_errors.1 (NewTokenizer (str "A=1")) (by decide),
   parse_terminates_or_errors.2 (str "A=1") 9 (by decide)⟩

/-- Claim C9: every key of a successfully parsed mapping is non-empty,
starts with an ASCII letter or underscore, and continues with ASCII
letters, digits or underscores (`validKey` is built from the tokenizer's
own `isValidKeyStart` / `isValidKeyChar`); blank and comment lines yield an
empty key that the loop skips and never inserts. -/
theorem parse_keys_valid (s : List Char) (out : EnvMap) (h : Parse s = .ok out) :
    ∀ p ∈ out, p.1 ≠ [] ∧ validKey p.1 = true := by
  intro p hp
  have hv := parseLoop_keys (s.length + 1) (NewTokenizer s) [] out
    (by intro q hq; cases hq) h p hp
  refine ⟨?_, hv⟩
  intro hnil
  rw [hnil] at hv
  simp [validKey] at hv

/-- Witness for C9 at a concrete input. -/
theorem parse_keys_valid_witness :
    (str "A_1") ≠ [] ∧ validKey (str "A_1") = true :=
  parse_keys_valid (str "A_1=x") [(str "A_1", str "x")] (by decide)
    ((str "A_1"), (str "x")) (by decide)

/-! ### Identifier runs and expansion -/

theorem validKey_head {k : List Char} (h : validKey k = true) :
    ∃ c r, k = c :: r ∧ isValidKeyStart c = true ∧ r.all isValidKeyChar = true := by
  rcases k with _ | ⟨c, r⟩
  · simp [validKey] at h
  · simp only [validKey, Bool.and_eq_true] at h
    exact ⟨c, r, rfl, h.1, h.2⟩

theorem validKey_all {k : List Char} (h : validKey k = true) :
    k.all isValidKeyChar = true := by
  obtain ⟨c, r, rfl, h1, h2⟩ := validKey_head h
  simp only [List.all_cons, Bool.and_eq_true]
  exact ⟨keyStart_keyChar h1, h2⟩

theorem takeWhile_all_append (p : Char → Bool) : ∀ (k rest : List Char),
    k.all p = true → (∀ c, rest.head? = some c → p c = false) →
    (k ++ rest).takeWhile p = k ∧ (k ++ rest).dropWhile p = rest := by
  intro k
  induction k with
  | nil =>
    intro rest h1 h2
    rcases rest with _ | ⟨c, r⟩
    · exact ⟨rfl, rfl⟩
    · have hc := h2 c rfl
      constructor <;> simp [List.takeWhile, List.dropWhile, hc]
  | cons a k ih =>
    intro rest h1 h2
    simp only [List.all_cons, Bool.and_eq_true] at h1
    obtain ⟨hik, hdk⟩ := ih rest h1.2 h2
    simp only [List.cons_append, List.takeWhile, List.dropWhile, h1.1, List.append_eq]
    exact ⟨by rw [hik], by rw [hdk]⟩

theorem keyChar_not_dollar {c : Char} (h : isValidKeyChar c = true) :
    (c == '$') = false := by
  by_contra hc
  have : c = '$' := by
    simpa using hc
  rw [this] at h
  exact absurd h (by decide)

theorem validKey_noDollar {k : List Char} (h : validKey k = true) :
    noDollar k = true := by
  have hall := validKey_all h
  simp only [List.all_eq_true] at hall
  simp only [noDollar, List.all_eq_true]
  intro c hc
  simpa using keyChar_not_dollar (hall c hc)

theorem matchBareRef_eq (name rest : List Char) (h : validKey name = true)
    (hr : ∀ c, rest.head? = some c → isValidKeyChar c = false) :
    matchBareRef (name ++ rest) = some (name, rest) := by
  obtain ⟨c, r, rfl, hc, hrall⟩ := validKey_head h
  obtain ⟨htk, hdr⟩ := takeWhile_all_append isValidKeyChar (c :: r) rest (validKey_all h) hr
  unfold matchBareRef
  rw [List.cons_append]
  simp only [List.headD_cons]
  rw [if_pos hc, ← List.cons_append, htk, hdr]

theorem matchBracedRef_eq (name rest : List Char) (h : validKey name = true) :
    matchBracedRef (name ++ '}' :: rest) = some (name, rest) := by
  obtain ⟨c, r, rfl, hc, hrall⟩ := validKey_head h
  have hbr : ∀ d, ('}' :: rest).head? = some d → isValidKeyChar d = false := by
    intro d hd
    simp at hd
    rw [← hd]
    decide
  obtain ⟨htk, hdr⟩ := takeWhile_all_append isValidKeyChar (c :: r) ('}' :: rest)
    (validKey_all h) hbr
  unfold matchBracedRef
  rw [List.cons_append]
  simp only [List.headD_cons]
  rw [if_pos hc, ← List.cons_append, hdr, htk]
  rfl

theorem matchBareRef_suffix_le {l name suffix : List Char}
    (h : matchBareRef l = some (name, suffix)) : suffix.length ≤ l.length := by
  unfold matchBareRef at h
  split at h
  · simp only [Option.some.injEq, Prod.mk.injEq] at h
    rw [← h.2]
    exact length_dropWhile_le _ _
  · simp at h

theorem matchBracedRef_suffix_le {l name suffix : List Char}
    (h : matchBracedRef l = some (name, suffix)) : suffix.length ≤ l.length := by
  unfold matchBracedRef at h
  split at h
  · split at h
    · rename_i r heq
      simp only [Option.some.injEq, Prod.mk.injEq] at h
      have hlen := length_dropWhile_le isValidKeyChar l
      rw [heq] at hlen
      simp only [List.length_cons] at hlen
      rw [← h.2]
      omega
    · simp at h
  · simp at h

theorem expandSimpleGo_nil (env : EnvMap) (f : Nat) : expandSimpleGo env f [] = [] := by
  rcases f with _ | n <;> rfl

theorem expandBracedGo_nil (env : EnvMap) (f : Nat) : expandBracedGo env f [] = [] := by
  rcases f with _ | n <;> rfl

theorem expandSimpleGo_fuel (env : EnvMap) : ∀ (f1 f2 : Nat) (l : List Char),
    l.length ≤ f1 → l.length ≤ f2 →
    expandSimpleGo env f1 l = expandSimpleGo env f2 l := by
  intro f1
  induction f1 with
  | zero =>
    intro f2 l h1 h2
    have hl : l = [] := List.eq_nil_of_length_eq_zero (Nat.le_zero.mp h1)
    subst hl
    rw [expandSimpleGo_nil, expandSimpleGo_nil]
  | succ n ih =>
    intro f2 l h1 h2
    rcases l with _ | ⟨c, rest⟩
    · rw [expandSimpleGo_nil, expandSimpleGo_nil]
    rcases f2 with _ | m
    · simp at h2
    simp only [List.length_cons] at h1 h2
    simp only [expandSimpleGo]
    by_cases hc : c = '$'
    · rw [if_pos hc, if_pos hc]
      rcases hm : matchBareRef rest with _ | ⟨name, suffix⟩ <;> simp only [hm]
      · rw [ih m rest (by omega) (by omega)]
      · have hs := matchBareRef_suffix_le hm
        rw [ih m suffix (by omega) (by omega)]
    · rw [if_neg hc, if_neg hc]
      rw [ih m rest (by omega) (by omega)]

theorem expandBracedGo_fuel (env : EnvMap) : ∀ (f1 f2 : Nat) (l : List Char),
    l.length ≤ f1 → l.length ≤ f2 →
    expandBracedGo env f1 l = expandBracedGo env f2 l := by
  intro f1
  induction f1 with
  | zero =>
    intro f2 l h1 h2
    have hl : l = [] := List.eq_nil_of_length_eq_zero (Nat.le_zero.mp h1)
    subst hl
    rw [expandBracedGo_nil, expandBracedGo_nil]
  | succ n ih =>
    intro f2 l h1 h2
    rcases l with _ | ⟨c, rest⟩
    · rw [expandBracedGo_nil, expandBracedGo_nil]
    rcases f2 with _ | m
    · simp at h2
    simp only [List.length_cons] at h1 h2
    simp only [expandBracedGo]
    by_cases hc : c = '$'
    · rw [if_pos hc, if_pos hc]
      rcases rest with _ | ⟨d, r2⟩
      · dsimp only
        rw [expandBracedGo_nil, expandBracedGo_nil]
      dsimp only
      simp only [List.length_cons] at h1 h2
      by_cases hd : d = '{'
      · rw [if_pos hd, if_pos hd]
        rcases hm : matchBracedRef r2 with _ | ⟨name, suffix⟩ <;> simp only [hm]
        · rw [ih m (d :: r2) (by simp; omega) (by simp; omega)]
        · have hs := matchBracedRef_suffix_le hm
          rw [ih m suffix (by omega) (by omega)]
      · rw [if_neg hd, if_neg hd]
        rw [ih m (d :: r2) (by simp; omega) (by simp; omega)]
    · rw [if_neg hc, if_neg hc]
      rw [ih m rest (by omega) (by omega)]

theorem noDollar_expandSimple (env : EnvMap) : ∀ (l : List Char),
    noDollar l = true → expandSimple env l = l := by
  intro l
  induction l with
  | nil => intro _; rfl
  | cons c rest ih =>
    intro h
    simp only [noDollar, List.all_cons, Bool.and_eq_true] at h
    have hc : ¬c = '$' := by simpa using h.1
    show expandSimpleGo env (c :: rest).length (c :: rest) = c :: rest
    simp only [List.length_cons, expandSimpleGo]
    rw [if_neg hc]
    rw [show expandSimpleGo env rest.length rest = expandSimple env rest from rfl, ih h.2]

theorem noDollar_expandBraced (env : EnvMap) : ∀ (l : List Char),
    noDollar l = true → expandBraced env l = l := by
  intro l
  induction l with
  | nil => intro _; rfl
  | cons c rest ih =>
    intro h
    simp only [noDollar, List.all_cons, Bool.and_eq_true] at h
    have hc : ¬c = '$' := by simpa using h.1
    show expandBracedGo env (c :: rest).length (c :: rest) = c :: rest
    simp only [List.length_cons, expandBracedGo]
    rw [if_neg hc]
    rw [show expandBracedGo env rest.length rest = expandBraced env rest from rfl, ih h.2]

theorem expandBracedGo_cons_dollar_brace (env : EnvMap) (fuel : Nat) (r2 : List Char) :
    expandBracedGo env (fuel + 1) ('$' :: '{' :: r2) =
      match matchBracedRef r2 with
      | some (name, suffix) =>
        (match lookupEnv env name with
         | some v => v
         | none => '$' :: '{' :: (name ++ ['}'])) ++ expandBracedGo env fuel suffix
      | none => '$' :: expandBracedGo env fuel ('{' :: r2) := by
  conv_lhs => rw [expandBracedGo]
  rw [if_pos rfl]
  try dsimp only
  rw [if_pos rfl]

theorem expandBracedGo_cons_dollar_other (env : EnvMap) (fuel : Nat) (d : Char)
    (r2 : List Char) (hd : d ≠ '{') :
    expandBracedGo env (fuel + 1) ('$' :: d :: r2) =
      '$' :: expandBracedGo env fuel (d :: r2) := by
  conv_lhs => rw [expandBracedGo]
  rw [if_pos rfl]
  try dsimp only
  rw [if_neg hd]

theorem expandSimpleGo_cons_dollar (env : EnvMap) (fuel : Nat) (rest : List Char) :
    expandSimpleGo env (fuel + 1) ('$' :: rest) =
      match matchBareRef rest with
      | some (name, suffix) =>
        (match lookupEnv env name with
         | some v => v
         | none => '$' :: name) ++ expandSimpleGo env fuel suffix
      | none => '$' :: expandSimpleGo env fuel rest := by
  conv_lhs => rw [expandSimpleGo]
  rw [if_pos rfl]

theorem expandBraced_ref_some (env : EnvMap) (name v : List Char)
    (h : validKey name = true) (hl : lookupEnv env name = some v) :
    expandBraced env ('$' :: '{' :: (name ++ ['}'])) = v := by
  show expandBracedGo env ('$' :: '{' :: (name ++ ['}'])).length _ = v
  rw [show ('$' :: '{' :: (name ++ ['}'])).length = ((name ++ ['}']).length + 1) + 1 from
    by simp]
  rw [expandBracedGo_cons_dollar_brace, matchBracedRef_eq name [] h]
  dsimp only
  rw [hl]
  dsimp only
  rw [expandBracedGo_nil]
  simp

theorem expandBraced_ref_none (env : EnvMap) (name : List Char)
    (h : validKey name = true) (hl : lookupEnv env name = none) :
    expandBraced env ('$' :: '{' :: (name ++ ['}'])) = '$' :: '{' :: (name ++ ['}']) := by
  show expandBracedGo env ('$' :: '{' :: (name ++ ['}'])).length _ = _
  rw [show ('$' :: '{' :: (name ++ ['}'])).length = ((name ++ ['}']).length + 1) + 1 from
    by simp]
  rw [expandBracedGo_cons_dollar_brace, matchBracedRef_eq name [] h]
  dsimp only
  rw [hl]
  dsimp only
  rw [expandBracedGo_nil]
  simp

theorem expandBraced_bareRef (env : EnvMap) (name : List Char)
    (h : validKey name = true) :
    expandBraced env ('$' :: name) = '$' :: name := by
  obtain ⟨c, r, hname, hc, hr⟩ := validKey_head h
  subst hname
  show expandBracedGo env ('$' :: c :: r).length _ = _
  rw [show ('$' :: c :: r).length = (r.length + 1) + 1 from by simp]
  rw [expandBracedGo_cons_dollar_other env _ c r (fun heq => absurd (heq ▸ hc) (by decide))]
  rw [show expandBracedGo env (r.length + 1) (c :: r) = expandBraced env (c :: r) from rfl]
  rw [noDollar_expandBraced env (c :: r) (validKey_noDollar h)]

theorem expandSimple_unresolvedBraced (env : EnvMap) (name : List Char)
    (h : validKey name = true) :
    expandSimple env ('$' :: '{' :: (name ++ ['}'])) = '$' :: '{' :: (name ++ ['}']) := by
  show expandSimpleGo env ('$' :: '{' :: (name ++ ['}'])).length _ = _
  rw [show ('$' :: '{' :: (name ++ ['}'])).length = ('{' :: (name ++ ['}'])).length + 1 from
    by simp]
  rw [expandSimpleGo_cons_dollar]
  have hm : matchBareRef ('{' :: (name ++ ['}'])) = none := by
    unfold matchBareRef
    rw [List.headD_cons]
    rw [if_neg (by decide : ¬isValidKeyStart '{' = true)]
  rw [hm]
  dsimp only
  rw [show expandSimpleGo env ('{' :: (name ++ ['}'])).length ('{' :: (name ++ ['}'])) =
        expandSimple env ('{' :: (name ++ ['}'])) from rfl]
  rw [noDollar_expandSimple env _ ?_]
  simp only [noDollar, List.all_cons, List.all_append, Bool.and_eq_true]
  refine ⟨by decide, ?_, by decide⟩
  exact validKey_noDollar h

theorem expandSimple_unresolvedBare (env : EnvMap) (name : List Char)
    (h : validKey name = true) (hl : lookupEnv env name = none) :
    expandSimple env ('$' :: name) = '$' :: name := by
  show expandSimpleGo env ('$' :: name).length _ = _
  rw [show ('$' :: name).length = name.length + 1 from by simp]
  rw [expandSimpleGo_cons_dollar]
  have hm : matchBareRef name = some (name, []) := by
    have := matchBareRef_eq name [] h (by intro c hc; simp at hc)
    simpa using this
  rw [hm]
  dsimp only
  rw [hl]
  dsimp only
  rw [expandSimpleGo_nil]
  simp

theorem expandSimple_bareSubst (env : EnvMap) (name v rest : List Char)
    (h : validKey name = true) (hl : lookupEnv env name = some v)
    (hr : ∀ c, rest.head? = some c → isValidKeyChar c = false) :
    expandSimple env ('$' :: (name ++ rest)) = v ++ expandSimple env rest := by
  show expandSimpleGo env ('$' :: (name ++ rest)).length _ = _
  rw [show ('$' :: (name ++ rest)).length = (name ++ rest).length + 1 from by simp]
  rw [expandSimpleGo_cons_dollar, matchBareRef_eq name rest h hr]
  dsimp only
  rw [hl]
  dsimp only
  rw [expandSimpleGo_fuel env (name ++ rest).length rest.length rest
    (by rw [List.length_append]; omega) (le_refl _)]
  rfl

/-! ### Claim theorems: expansion recursion and scope -/

/-- Counterexample to claim C1 as stated: with B bound to `"$A"` and A
bound to `"x"`, expanding `"${B}"` yields `"x"`, not `"$A"` — the value
substituted by the braced pass IS re-scanned by the subsequent bare-`$`
pass.  The same behaviour is visible through `Parse`: C comes out as `"x"`,
not `"$A"`. -/
theorem expansion_recursion_counterexample :
    expandVariables (str "${B}") [(str "B", str "$A"), (str "A", str "x")] = str "x" ∧
    str "x" ≠ str "$A" ∧
    Parse (str "A=x\nB='$A'\nC=\"${B}\"") =
      .ok [(str "A", str "x"), (str "B", str "$A"), (str "C", str "x")] :=
  ⟨by decide, by decide, by decide⟩

/-- Claim C1 as amended: expansion recurses exactly one level across the
two passes and never within a pass.  (1) A value substituted for `${NAME}`
by the braced pass is re-scanned only by the bare pass: the whole expansion
of `"${NAME}"` equals the bare pass applied to the mapping's value.  (2) A
value substituted for a bare `$NAME` reference is inserted as-is — the
bare pass continues after it, never scanning the inserted text.  (3) In
particular any substituted value without a `$` is returned unchanged. -/
theorem expansion_substitution_one_level :
    (∀ (env : EnvMap) (name v : List Char), validKey name = true →
      lookupEnv env name = some v →
      expandVariables ('$' :: '{' :: (name ++ ['}'])) env = expandSimple env v) ∧
    (∀ (env : EnvMap) (name v rest : List Char), validKey name = true →
      lookupEnv env name = some v →
      (∀ c, rest.head? = some c → isValidKeyChar c = false) →
      expandSimple env ('$' :: (name ++ rest)) = v ++ expandSimple env rest) ∧
    (∀ (env : EnvMap) (l : List Char), noDollar l = true → expandSimple env l = l) := by
  refine ⟨?_, ?_, ?_⟩
  · intro env name v h hl
    show expandSimple env (expandBraced env _) = _
    rw [expandBraced_ref_some env name v h hl]
  · exact expandSimple_bareSubst
  · exact noDollar_expandSimple

/-- Witness for the amended C1 at concrete inputs. -/
theorem expansion_substitution_one_level_witness :
    expandVariables (str "${B}") [(str "B", str "$A"), (str "A", str "x")] =
      expandSimple [(str "B", str "$A"), (str "A", str "x")] (str "$A") ∧
    expandSimple [(str "A", str "y")] (str "$A end") =
      str "y" ++ expandSimple [(str "A", str "y")] (str " end") ∧
    expandSimple [(str "A", str "y")] (str "plain") = str "plain" :=
  ⟨expansion_substitution_one_level.1 [(str "B", str "$A"), (str "A", str "x")]
      (str "B") (str "$A") (by decide) (by decide),
   expansion_substitution_one_level.2.1 [(str "A", str "y")] (str "A") (str "y")
      (str " end") (by decide) (by decide) (by decide),
   expansion_substitution_one_level.2.2 [(str "A", str "y")] (str "plain") (by decide)⟩

/-- Claim C4: expansion scope.  The document loop expands line N's value
against exactly the mapping accumulated from lines 1..N-1 (`parseLoop`
passes the current `env` to `expandVariables` before inserting the new
key).  A reference to any name not bound in that mapping — a forward
reference or the key being defined itself — is left as literal text, in
both the `${NAME}` and the `$NAME` form; and on the spec's own example the
forward reference `${B}` survives unchanged while B still gets its
value. -/
theorem expansion_scope_forward_refs :
    (∀ (env : EnvMap) (name : List Char), validKey name = true →
      lookupEnv env name = none →
      expandVariables ('$' :: '{' :: (name ++ ['}'])) env = '$' :: '{' :: (name ++ ['}']) ∧
      expandVariables ('$' :: name) env = '$' :: name) ∧
    Parse (str "A=\"${B}\"\nB=val") = .ok [(str "A", str "${B}"), (str "B", str "val")] := by
  constructor
  · intro env name h hl
    constructor
    · show expandSimple env (expandBraced env _) = _
      rw [expandBraced_ref_none env name h hl]
      exact expandSimple_unresolvedBraced env name h
    · show expandSimple env (expandBraced env _) = _
      rw [expandBraced_bareRef env name h]
      exact expandSimple_unresolvedBare env name h hl
  · decide

/-- Witness for C4 at a concrete input. -/
theorem expansion_scope_forward_refs_witness :
    expandVariables (str "${B}") [] = str "${B}" ∧
    expandVariables (str "$B") [] = str "$B" :=
  expansion_scope_forward_refs.1 [] (str "B") (by decide) (by decide)

/-! ### Quoted values: line accounting and quote semantics -/

theorem quotedSpanGo_unterminated (quote : Char) : ∀ (fuel : Nat) (l : List Char)
    (line l' : Nat), l.length ≤ fuel →
    quotedSpanGo quote fuel l line = .error (.unterminated l') →
    l' = line + l.count '\n' := by
  intro fuel
  induction fuel with
  | zero =>
    intro l line l' hf h
    have hl : l = [] := List.eq_nil_of_length_eq_zero (Nat.le_zero.mp hf)
    subst hl
    simp only [quotedSpanGo, Except.error.injEq, ParseErr.unterminated.injEq] at h
    simp [← h]
  | succ n ih =>
    intro l line l' hf h
    rcases l with _ | ⟨c, rest⟩
    · simp only [quotedSpanGo, Except.error.injEq, ParseErr.unterminated.injEq] at h
      simp [← h]
    simp only [List.length_cons] at hf
    by_cases h1 : c = quote
    · simp [quotedSpanGo, if_pos h1] at h
    by_cases h2 : c = '\\' ∧ quote = '"'
    · rcases rest with _ | ⟨e, rest2⟩
      · simp [quotedSpanGo, if_neg h1, if_pos h2] at h
      · rcases hq : quotedSpanGo quote n rest2 (if e = '\n' then line + 1 else line) with
          e2 | ⟨v0, r0, l0⟩
        · simp only [quotedSpanGo, if_neg h1, if_pos h2, hq, Except.error.injEq] at h
          rw [h] at hq
          have hrec := ih rest2 (if e = '\n' then line + 1 else line) l'
            (by simp only [List.length_cons] at hf; omega) hq
          have hcw : ¬c = '\n' := by rw [h2.1]; decide
          rw [hrec]
          by_cases hen : e = '\n' <;>
            simp [List.count_cons, hen, hcw] <;> omega
        · simp [quotedSpanGo, if_neg h1, if_pos h2, hq] at h
    · rcases hq : quotedSpanGo quote n rest (if c = '\n' then line + 1 else line) with
        e2 | ⟨v0, r0, l0⟩
      · simp only [quotedSpanGo, if_neg h1, if_neg h2, hq, Except.error.injEq] at h
        rw [h] at hq
        have hrec := ih rest (if c = '\n' then line + 1 else line) l' (by omega) hq
        rw [hrec]
        by_cases hcn : c = '\n' <;>
          simp [List.count_cons, hcn] <;> omega
      · simp [quotedSpanGo, if_neg h1, if_neg h2, hq] at h

theorem parseQuotedValue_unterminated (quote : Char) (t : Tokenizer) (l' : Nat)
    (h : parseQuotedValue quote t = .error (.unterminated l')) :
    l' = t.line + t.rest.count '\n' := by
  rcases hq : quotedSpan quote (advanceTok t).rest (advanceTok t).line with e | ⟨v0, r0, l0⟩
  · simp only [parseQuotedValue, hq, Except.error.injEq] at h
    rw [h] at hq
    have := quotedSpanGo_unterminated quote (advanceTok t).rest.length (advanceTok t).rest
      (advanceTok t).line l' (le_refl _) hq
    rcases ht : t.rest with _ | ⟨c, r⟩
    · have hadv : advanceTok t = t := by unfold advanceTok; rw [ht]
      rw [hadv, ht] at this
      rw [this]
    · have hadv : advanceTok t =
          { t with rest := r, line := if c = '\n' then t.line + 1 else t.line } := by
        unfold advanceTok
        rw [ht]
      rw [hadv] at this
      dsimp only at this
      rw [this]
      by_cases hcn : c = '\n' <;> simp [List.count_cons, hcn] <;> omega
  · simp [parseQuotedValue, hq] at h

theorem quotedSpanGo_single : ∀ (v : List Char), '\'' ∉ v →
    ∀ (rest : List Char) (line fuel : Nat), (v ++ '\'' :: rest).length ≤ fuel →
    quotedSpanGo '\'' fuel (v ++ '\'' :: rest) line = .ok (v, rest, line + v.count '\n') := by
  intro v
  induction v with
  | nil =>
    intro _ rest line fuel hf
    rcases fuel with _ | f
    · simp at hf
    simp [quotedSpanGo]
  | cons c v' ih =>
    intro hv rest line fuel hf
    have hc : ¬c = '\'' := fun hh => hv (hh ▸ List.mem_cons_self _ _)
    have hv' : '\'' ∉ v' := fun hh => hv (List.mem_cons_of_mem _ hh)
    rcases fuel with _ | f
    · simp at hf
    rw [List.cons_append]
    have hstep := ih hv' rest (if c = '\n' then line + 1 else line) f
      (by simp only [List.cons_append, List.length_cons] at hf; omega)
    simp only [quotedSpanGo, hstep]
    rw [if_neg hc, if_neg (fun hand => absurd hand.2 (by decide))]
    try dsimp only
    have harith : (if c = '\n' then line + 1 else line) + v'.count '\n' =
        line + (c :: v').count '\n' := by
      by_cases hcn : c = '\n' <;> simp [List.count_cons, hcn] <;> omega
    rw [harith]

theorem quotedSpanGo_escape_pair (e : Char) (rest : List Char) (line f : Nat) :
    quotedSpanGo '"' (f + 2) ('\\' :: e :: '"' :: rest) line =
      .ok (escTranslate e, rest, if e = '\n' then line + 1 else line) := by
  rw [show f + 2 = (f + 1) + 1 from rfl]
  simp [quotedSpanGo]

theorem parseQuotedValue_single (v rest : List Char) (line : Nat) (em : Bool)
    (hv : '\'' ∉ v) :
    parseQuotedValue '\'' ⟨'\'' :: (v ++ '\'' :: rest), line, em⟩ =
      .ok (v, ⟨rest, line + v.count '\n', em⟩) := by
  have hadv : advanceTok ⟨'\'' :: (v ++ '\'' :: rest), line, em⟩ =
      ⟨v ++ '\'' :: rest, line, em⟩ := by
    unfold advanceTok
    dsimp only
    rw [if_neg (by decide : ¬('\'' : Char) = '\n')]
  unfold parseQuotedValue
  rw [hadv]
  dsimp only
  unfold quotedSpan
  rw [quotedSpanGo_single v hv rest line _ (le_refl _)]

theorem parseQuotedValue_escape (e : Char) (rest : List Char) (line : Nat) (em : Bool) :
    parseQuotedValue '"' ⟨'"' :: '\\' :: e :: '"' :: rest, line, em⟩ =
      .ok (escTranslate e, ⟨rest, if e = '\n' then line + 1 else line, em⟩) := by
  have hadv : advanceTok ⟨'"' :: '\\' :: e :: '"' :: rest, line, em⟩ =
      ⟨'\\' :: e :: '"' :: rest, line, em⟩ := by
    unfold advanceTok
    dsimp only
    rw [if_neg (by decide : ¬('"' : Char) = '\n')]
  unfold parseQuotedValue
  rw [hadv]
  dsimp only
  unfold quotedSpan
  rw [show ('\\' :: e :: '"' :: rest).length = (rest.length + 1) + 2 from by simp]
  rw [quotedSpanGo_escape_pair]

/-! ### Claim theorems: quoted values -/

/-- Counterexample to claim C3 as stated: for the input `K="a<LF>b` the
quoted value begins on line 1, but the unterminated-string error reports
line 2 — the tokenizer's line counter has advanced past the line feed
inside the open quoted literal before end-of-input is reached. -/
theorem unterminated_line_counterexample :
    Parse (str "K=\"a\nb") = .error (.unterminated 2) ∧ 2 ≠ 1 :=
  ⟨by decide, by decide⟩

/-- Claim C3 as amended: an `UnterminatedString` error from the quoted
value parser reports the 1-based line number at which end-of-input is
reached, i.e. the line where the value began plus the number of line-feed
bytes in the remaining input; for quoted values whose content spans no
line feed this is exactly the line where the value began. -/
theorem unterminated_reports_eof_line :
    (∀ (quote : Char) (t : Tokenizer) (l : Nat),
      parseQuotedValue quote t = .error (.unterminated l) →
      l = t.line + t.rest.count '\n') ∧
    Parse (str "K=\"a\nb") = .error (.unterminated 2) :=
  ⟨parseQuotedValue_unterminated, by decide⟩

/-- Witness for the amended C3 at a concrete input (a quoted value opened
on line 1 whose content spans one line feed before end-of-input). -/
theorem unterminated_reports_eof_line_witness :
    (2 : Nat) = (Tokenizer.mk (str "\"a\nb") 1 true).line +
      (Tokenizer.mk (str "\"a\nb") 1 true).rest.count '\n' :=
  unterminated_reports_eof_line.1 '"' (Tokenizer.mk (str "\"a\nb") 1 true) 2 (by decide)

/-- Claim C5: quote semantics.  (1) In a single-quoted value every content
byte — backslashes included — is kept literally and `$` is not expanded
(the parser marks the line non-expandable, shown by the concrete inputs).
(2) In a double-quoted value a backslash escape is translated by the
source's switch: `\n` `\t` `\r` `\\` `\"` `\'` become their byte values and
any other escaped character comes out as backslash plus that character
(`escTranslate` is exactly that switch).  (3) On the spec's examples:
`A='$B literal'` keeps `$B literal` while `A="$B literal"` expands to
`x literal`, and `K='a\nb'` keeps the two characters backslash, `n`. -/
theorem quote_semantics :
    (∀ (v rest : List Char) (line : Nat) (em : Bool), '\'' ∉ v →
      parseQuotedValue '\'' ⟨'\'' :: (v ++ '\'' :: rest), line, em⟩ =
        .ok (v, ⟨rest, line + v.count '\n', em⟩)) ∧
    (∀ (e : Char) (rest : List Char) (line : Nat) (em : Bool),
      parseQuotedValue '"' ⟨'"' :: '\\' :: e :: '"' :: rest, line, em⟩ =
        .ok (escTranslate e, ⟨rest, if e = '\n' then line + 1 else line, em⟩)) ∧
    escTranslate 'n' = ['\n'] ∧ escTranslate 't' = ['\t'] ∧ escTranslate 'r' = ['\r'] ∧
    escTranslate '\\' = ['\\'] ∧ escTranslate '"' = ['"'] ∧ escTranslate '\'' = ['\''] ∧
    escTranslate 'x' = ['\\', 'x'] ∧
    Parse (str "B=x\nA='$B literal'") =
      .ok [(str "B", str "x"), (str "A", str "$B literal")] ∧
    Parse (str "B=x\nA=\"$B literal\"") =
      .ok [(str "B", str "x"), (str "A", str "x literal")] ∧
    Parse (str "K='a\\nb'") = .ok [(str "K", ['a', '\\', 'n', 'b'])] ∧
    Parse (str "K=\"a\\nb\\tc\\x\"") =
      .ok [(str "K", ['a', '\n', 'b', '\t', 'c', '\\', 'x'])] :=
  ⟨parseQuotedValue_single, parseQuotedValue_escape, by decide, by decide, by decide,
   by decide, by decide, by decide, by decide, by decide, by decide, by decide, by decide⟩

/-- Witness for C5 at concrete inputs. -/
theorem quote_semantics_witness :
    parseQuotedValue '\'' ⟨'\'' :: (['a', '\\', 'n', 'b'] ++ '\'' :: []), 1, true⟩ =
      .ok (['a', '\\', 'n', 'b'], ⟨[], 1 + (['a', '\\', 'n', 'b'] : List Char).count '\n', true⟩) :=
  quote_semantics.1 ['a', '\\', 'n', 'b'] [] 1 true (by decide)

/-- Claim C10: multi-line quoted values.  The input `K="a<LF>b"` — an
actual line-feed byte between the quotes — parses successfully, and K's
value contains that line feed: `parseQuotedValue` consumes newline bytes
like any other content byte. -/
theorem multiline_quoted_value :
    Parse (str "K=\"a\nb\"") = .ok [(str "K", str "a\nb")] ∧ '\n' ∈ str "a\nb" :=
  ⟨by decide, by decide⟩

/-! ### Unquoted values -/

theorem unquotedSpan_characterization : ∀ (l : List Char),
    unquotedSpan l =
      (l.takeWhile (fun c => !(c == '\n' || c == '\r' || c == '#')),
       ((l.dropWhile (fun c => !(c == '\n' || c == '\r' || c == '#'))).headD
         (Char.ofNat 0)) == '#',
       l.dropWhile (fun c => !(c == '\n' || c == '\r' || c == '#'))) := by
  intro l
  induction l with
  | nil => decide
  | cons c rest ih =>
    by_cases h1 : c = '\n' ∨ c = '\r'
    · have hstop : (!(c == '\n' || c == '\r' || c == '#')) = false := by
        rcases h1 with h | h <;> subst h <;> decide
      have hne : (c == '#') = false := by
        rcases h1 with h | h <;> subst h <;> decide
      have hsp : unquotedSpan (c :: rest) = ([], false, c :: rest) := by
        unfold unquotedSpan
        rw [if_pos h1]
      have htw : (c :: rest).takeWhile (fun c => !(c == '\n' || c == '\r' || c == '#')) = [] := by
        simp only [List.takeWhile, hstop]
      have hdw : (c :: rest).dropWhile (fun c => !(c == '\n' || c == '\r' || c == '#')) =
          c :: rest := by
        simp only [List.dropWhile, hstop]
      rw [hsp, htw, hdw, List.headD_cons, hne]
    by_cases h2 : c = '#'
    · subst h2
      have hstop : (!(('#' : Char) == '\n' || ('#' : Char) == '\r' || ('#' : Char) == '#')) =
          false := by decide
      have hsp : unquotedSpan ('#' :: rest) = ([], true, '#' :: rest) := by
        unfold unquotedSpan
        rw [if_neg h1, if_pos rfl]
      have htw : ('#' :: rest).takeWhile (fun c => !(c == '\n' || c == '\r' || c == '#')) = [] := by
        simp only [List.takeWhile, hstop]
      have hdw : ('#' :: rest).dropWhile (fun c => !(c == '\n' || c == '\r' || c == '#')) =
          '#' :: rest := by
        simp only [List.dropWhile, hstop]
      rw [hsp, htw, hdw, List.headD_cons]
      rfl
    · have hgo : (!(c == '\n' || c == '\r' || c == '#')) = true := by
        simp only [Bool.not_eq_true', Bool.or_eq_false_iff, beq_eq_false_iff_ne, ne_eq]
        exact ⟨⟨fun hh => h1 (Or.inl hh), fun hh => h1 (Or.inr hh)⟩, h2⟩
      have hsp : unquotedSpan (c :: rest) =
          (c :: (unquotedSpan rest).1, (unquotedSpan rest).2.1, (unquotedSpan rest).2.2) := by
        rcases hu : unquotedSpan rest with ⟨v, hcm, r⟩
        dsimp only
        conv_lhs => rw [unquotedSpan]
        rw [if_neg h1, if_neg h2, hu]
      have htw : (c :: rest).takeWhile (fun c => !(c == '\n' || c == '\r' || c == '#')) =
          c :: rest.takeWhile (fun c => !(c == '\n' || c == '\r' || c == '#')) := by
        simp only [List.takeWhile, hgo]
      have hdw : (c :: rest).dropWhile (fun c => !(c == '\n' || c == '\r' || c == '#')) =
          rest.dropWhile (fun c => !(c == '\n' || c == '\r' || c == '#')) := by
        simp only [List.dropWhile, hgo]
      rw [hsp, ih]
      dsimp only
      rw [htw, hdw]

/-- Claim C6: unquoted values.  `parseUnquotedValue` returns exactly the
byte run from the cursor up to (not including) the first line feed,
carriage return or `#` — interior bytes, whitespace included, preserved —
with trailing spaces/tabs stripped by `trimRightWS`; the has-comment flag
is set exactly when the stopping byte is `#`, and the stopping byte is not
consumed.  Whitespace immediately after `=` is consumed by the
whitespace-skip step of `ParseLine` before the value starts, as the spec's
own example shows. -/
theorem unquoted_value_spec :
    (∀ t : Tokenizer, parseUnquotedValue t =
      (trimRightWS (t.rest.takeWhile fun c => !(c == '\n' || c == '\r' || c == '#')),
       (((t.rest.dropWhile fun c => !(c == '\n' || c == '\r' || c == '#')).headD
         (Char.ofNat 0)) == '#'),
       { t with rest := t.rest.dropWhile fun c => !(c == '\n' || c == '\r' || c == '#') })) ∧
    Parse (str "KEY3=    value with leading spaces") =
      .ok [(str "KEY3", str "value with leading spaces")] := by
  constructor
  · intro t
    unfold parseUnquotedValue
    rw [unquotedSpan_characterization t.rest]
  · decide

/-! ### Round trip: serialization shape and mapping algebra -/

theorem encPair_ne_nil (p : List Char × List Char) : encPair p ≠ [] := by
  unfold encPair
  rcases p.1 with _ | ⟨c, r⟩ <;> simp

theorem joinLines_encAll : ∀ (p : List Char × List Char) (ps : EnvMap),
    joinLines (List.map encPair (p :: ps)) ++ ['\n'] = encAll (p :: ps) := by
  intro p ps
  induction ps generalizing p with
  | nil => simp [joinLines, encAll]
  | cons q ps' ih =>
    show joinLines (encPair p :: encPair q :: List.map encPair ps') ++ ['\n'] = _
    rw [show joinLines (encPair p :: encPair q :: List.map encPair ps') =
        encPair p ++ '\n' :: joinLines (encPair q :: List.map encPair ps') from rfl]
    rw [encAll, ← ih q]
    simp

theorem serializeEnv_eq_encAll (env : EnvMap) :
    serializeEnv env = encAll (sortPairs env) := by
  unfold serializeEnv
  rcases hs : sortPairs env with _ | ⟨p, ps⟩
  · simp [joinLines, encAll]
  · rw [← joinLines_encAll p ps]
    have hne : joinLines (List.map encPair (p :: ps)) ≠ [] := by
      rcases ps with _ | ⟨q, ps'⟩
      · simpa [joinLines] using encPair_ne_nil p
      · show encPair p ++ '\n' :: joinLines (encPair q :: List.map encPair ps') ≠ []
        rcases he : encPair p with _ | ⟨c, r⟩ <;> simp
    rw [if_neg (by simpa using hne)]

theorem insertEnv_append {env : EnvMap} {k v : List Char}
    (h : ∀ p ∈ env, p.1 ≠ k) : insertEnv env k v = env ++ [(k, v)] := by
  induction env with
  | nil => rfl
  | cons q rest ih =>
    rcases q with ⟨k', v'⟩
    have hk' : k' ≠ k := h (k', v') (List.mem_cons_self _ _)
    simp only [insertEnv, if_neg hk']
    rw [ih (fun p hp => h p (List.mem_cons_of_mem _ hp))]
    rfl

theorem foldl_insertEnv_nodup : ∀ (l acc : EnvMap),
    (((acc ++ l).map Prod.fst)).Nodup →
    l.foldl (fun e p => insertEnv e p.1 p.2) acc = acc ++ l := by
  intro l
  induction l with
  | nil => intro acc _; simp
  | cons p rest ih =>
    intro acc hnd
    rcases p with ⟨k, v⟩
    have hknotin : ∀ q ∈ acc, q.1 ≠ k := by
      intro q hq heq
      rw [List.map_append] at hnd
      have h1 : k ∈ acc.map Prod.fst := heq ▸ List.mem_map_of_mem Prod.fst hq
      have h2 : k ∈ ((k, v) :: rest).map Prod.fst := by simp
      rcases List.disjoint_of_nodup_append hnd h1 h2
    show List.foldl (fun e p => insertEnv e p.1 p.2) (insertEnv acc k v) rest = _
    rw [insertEnv_append hknotin]
    rw [ih (acc ++ [(k, v)]) (by simpa using hnd)]
    simp

theorem lookupEnv_eq_none {l : EnvMap} {k : List Char} :
    lookupEnv l k = none ↔ ∀ v, (k, v) ∉ l := by
  induction l with
  | nil => simp [lookupEnv]
  | cons p rest ih =>
    rcases p with ⟨k', v'⟩
    by_cases hk : k' = k
    · subst hk
      rw [lookupEnv, List.find?_cons_of_pos _ (by simp)]
      simp only [Option.map_some']
      constructor
      · intro h; cases h
      · intro h
        exact absurd (List.mem_cons_self _ _) (h v')
    · rw [lookupEnv, List.find?_cons_of_neg _ (by simpa using hk)]
      rw [show (Option.map (fun p => p.2) (List.find? (fun p => p.1 == k) rest)) =
          lookupEnv rest k from rfl]
      rw [ih]
      constructor
      · intro h v hv
        rcases List.mem_cons.mp hv with h1 | h1
        · exact hk (congrArg Prod.fst h1).symm
        · exact h v h1
      · intro h v hv
        exact h v (List.mem_cons_of_mem _ hv)

theorem lookupEnv_some_mem {l : EnvMap} {k v : List Char}
    (h : lookupEnv l k = some v) : (k, v) ∈ l := by
  unfold lookupEnv at h
  rcases hf : List.find? (fun p => p.1 == k) l with _ | q <;> rw [hf] at h
  · cases h
  · simp only [Option.map_some', Option.some.injEq] at h
    have hmem := List.mem_of_find?_eq_some hf
    have hpred := List.find?_some hf
    simp only [beq_iff_eq] at hpred
    rcases q with ⟨qk, qv⟩
    dsimp only at h hpred
    subst h
    subst hpred
    exact hmem

theorem lookupEnv_of_mem_nodup {l : EnvMap} (hnd : (l.map Prod.fst).Nodup)
    {k v : List Char} (hm : (k, v) ∈ l) : lookupEnv l k = some v := by
  induction l with
  | nil => cases hm
  | cons p rest ih =>
    rcases p with ⟨k', v'⟩
    rcases List.mem_cons.mp hm with h1 | h1
    · injection h1 with hkk hvv
      subst hkk
      subst hvv
      rw [lookupEnv, List.find?_cons_of_pos _ (by simp)]
      simp only [Option.map_some']
    · have hkne : ¬k' = k := by
        intro he
        subst he
        have hin : k' ∈ rest.map Prod.fst := by
          have := List.mem_map_of_mem Prod.fst h1
          simpa using this
        simp only [List.map_cons, List.nodup_cons] at hnd
        exact hnd.1 hin
      rw [lookupEnv, List.find?_cons_of_neg _ (by simpa using hkne)]
      rw [show (Option.map (fun p => p.2) (List.find? (fun p => p.1 == k) rest)) =
          lookupEnv rest k from rfl]
      refine ih ?_ h1
      simp only [List.map_cons, List.nodup_cons] at hnd
      exact hnd.2

theorem lookupEnv_perm {l1 l2 : EnvMap} (hp : l1.Perm l2)
    (hnd : (l1.map Prod.fst).Nodup) (k : List Char) :
    lookupEnv l1 k = lookupEnv l2 k := by
  have hnd2 : (l2.map Prod.fst).Nodup := ((hp.map Prod.fst).nodup_iff).mp hnd
  rcases h1 : lookupEnv l1 k with _ | v
  · rcases h2 : lookupEnv l2 k with _ | v2
    · rfl
    · have hm2 := lookupEnv_some_mem h2
      have hm1 := hp.mem_iff.mpr hm2
      rw [lookupEnv_eq_none] at h1
      exact absurd hm1 (h1 v2)
  · have hm := lookupEnv_some_mem h1
    have hm2 := hp.mem_iff.mp hm
    exact (lookupEnv_of_mem_nodup hnd2 hm2).symm

theorem takeWhile_head_false {p : Char → Bool} {l : List Char}
    (h : ∀ c, l.head? = some c → p c = false) : l.takeWhile p = [] := by
  rcases l with _ | ⟨c, r⟩
  · rfl
  · simp [List.takeWhile, h c rfl]

theorem dropWhile_head_false {p : Char → Bool} {l : List Char}
    (h : ∀ c, l.head? = some c → p c = false) : l.dropWhile p = l := by
  rcases l with _ | ⟨c, r⟩
  · rfl
  · simp [List.dropWhile, h c rfl]

theorem skipWhitespace_eq_self {t : Tokenizer}
    (h : ∀ c, t.rest.head? = some c → (c == ' ' || c == '\t') = false) :
    skipWhitespace t = t := by
  unfold skipWhitespace
  rw [dropWhile_head_false h]

theorem keyStart_ne {c d : Char} (h : isValidKeyStart c = true)
    (hd : isValidKeyStart d = false) : ¬c = d := by
  intro he
  rw [he, hd] at h
  cases h

theorem keyChar_ne {c d : Char} (h : isValidKeyChar c = true)
    (hd : isValidKeyChar d = false) : ¬c = d := by
  intro he
  rw [he, hd] at h
  cases h

theorem isExportLine_true_take {l : List Char} (h : isExportLine l = true) :
    l.take 7 = str "export " := by
  rcases l with _ | ⟨c1, _ | ⟨c2, _ | ⟨c3, _ | ⟨c4, _ | ⟨c5, _ | ⟨c6, _ | ⟨c7, rest⟩⟩⟩⟩⟩⟩⟩ <;>
    simp only [isExportLine] at h
  · cases h
  · cases h
  · cases h
  · cases h
  · cases h
  · cases h
  · cases h
  · simp only [Bool.and_eq_true, beq_iff_eq] at h
    obtain ⟨⟨⟨⟨⟨⟨h1, h2⟩, h3⟩, h4⟩, h5⟩, h6⟩, h7⟩ := h
    subst h1; subst h2; subst h3; subst h4; subst h5; subst h6; subst h7
    rfl

theorem export_no_match (k s : List Char) (hk : validKey k = true) :
    isExportLine (k ++ '=' :: s) = false := by
  by_contra hc
  have hx : isExportLine (k ++ '=' :: s) = true := by
    rcases hb : isExportLine (k ++ '=' :: s) with _ | _
    · exact absurd hb hc
    · rfl
  have ht := isExportLine_true_take hx
  have hall := validKey_all hk
  rcases k with _ | ⟨a, _ | ⟨b, _ | ⟨c, _ | ⟨d, _ | ⟨e, _ | ⟨f, _ | ⟨g, k'⟩⟩⟩⟩⟩⟩⟩
  · simp [validKey] at hk
  · simp only [List.cons_append, List.nil_append, List.take, str] at ht
    have h2 := (List.cons.injEq _ _ _ _ |>.mp ht).2
    have h3 := (List.cons.injEq _ _ _ _ |>.mp h2).1
    exact absurd h3 (by decide)
  · simp only [List.cons_append, List.nil_append, List.take, str] at ht
    have h2 := (List.cons.injEq _ _ _ _ |>.mp ht).2
    have h3 := (List.cons.injEq _ _ _ _ |>.mp h2).2
    have h4 := (List.cons.injEq _ _ _ _ |>.mp h3).1
    exact absurd h4 (by decide)
  · simp only [List.cons_append, List.nil_append, List.take, str] at ht
    have h2 := (List.cons.injEq _ _ _ _ |>.mp ht).2
    have h3 := (List.cons.injEq _ _ _ _ |>.mp h2).2
    have h4 := (List.cons.injEq _ _ _ _ |>.mp h3).2
    have h5 := (List.cons.injEq _ _ _ _ |>.mp h4).1
    exact absurd h5 (by decide)
  · simp only [List.cons_append, List.nil_append, List.take, str] at ht
    have h2 := (List.cons.injEq _ _ _ _ |>.mp ht).2
    have h3 := (List.cons.injEq _ _ _ _ |>.mp h2).2
    have h4 := (List.cons.injEq _ _ _ _ |>.mp h3).2
    have h5 := (List.cons.injEq _ _ _ _ |>.mp h4).2
    have h6 := (List.cons.injEq _ _ _ _ |>.mp h5).1
    exact absurd h6 (by decide)
  · simp only [List.cons_append, List.nil_append, List.take, str] at ht
    have h2 := (List.cons.injEq _ _ _ _ |>.mp ht).2
    have h3 := (List.cons.injEq _ _ _ _ |>.mp h2).2
    have h4 := (List.cons.injEq _ _ _ _ |>.mp h3).2
    have h5 := (List.cons.injEq _ _ _ _ |>.mp h4).2
    have h6 := (List.cons.injEq _ _ _ _ |>.mp h5).2
    have h7 := (List.cons.injEq _ _ _ _ |>.mp h6).1
    exact absurd h7 (by decide)
  · simp only [List.cons_append, List.nil_append, List.take, str] at ht
    have h2 := (List.cons.injEq _ _ _ _ |>.mp ht).2
    have h3 := (List.cons.injEq _ _ _ _ |>.mp h2).2
    have h4 := (List.cons.injEq _ _ _ _ |>.mp h3).2
    have h5 := (List.cons.injEq _ _ _ _ |>.mp h4).2
    have h6 := (List.cons.injEq _ _ _ _ |>.mp h5).2
    have h7 := (List.cons.injEq _ _ _ _ |>.mp h6).2
    have h8 := (List.cons.injEq _ _ _ _ |>.mp h7).1
    exact absurd h8 (by decide)
  · simp only [List.cons_append, List.take, str] at ht
    have h2 := (List.cons.injEq _ _ _ _ |>.mp ht).2
    have h3 := (List.cons.injEq _ _ _ _ |>.mp h2).2
    have h4 := (List.cons.injEq _ _ _ _ |>.mp h3).2
    have h5 := (List.cons.injEq _ _ _ _ |>.mp h4).2
    have h6 := (List.cons.injEq _ _ _ _ |>.mp h5).2
    have h7 := (List.cons.injEq _ _ _ _ |>.mp h6).2
    have h8 := (List.cons.injEq _ _ _ _ |>.mp h7).1
    have hg : isValidKeyChar g = true := by
      simp only [List.all_cons, Bool.and_eq_true] at hall
      exact hall.2.2.2.2.2.2.1
    rw [h8] at hg
    exact absurd hg (by decide)

theorem needsQuoting_false_forall {v : List Char} (h : needsQuoting v = false) :
    ∀ c ∈ v, isSpecialChar c = false := by
  intro c hc
  rcases v with _ | ⟨d, r⟩
  · cases hc
  · unfold needsQuoting at h
    rw [if_neg (by simp)] at h
    by_contra hcc
    have hct : isSpecialChar c = true := by
      rcases hb : isSpecialChar c with _ | _
      · exact absurd hb hcc
      · rfl
    have : (d :: r).any isSpecialChar = true := List.any_eq_true.mpr ⟨c, hc, hct⟩
    rw [this] at h
    cases h

theorem special_false_parts {c : Char} (h : isSpecialChar c = false) :
    ¬c = ' ' ∧ ¬c = '\t' ∧ ¬c = '\n' ∧ ¬c = '\r' ∧ ¬c = '"' ∧ ¬c = '\'' ∧
      ¬c = '\\' ∧ ¬c = '#' ∧ ¬c = '$' := by
  simp only [isSpecialChar, Bool.or_eq_false_iff, beq_eq_false_iff_ne, ne_eq] at h
  tauto

theorem replCh_append (target : Char) (repl : List Char) : ∀ (l1 l2 : List Char),
    replCh target repl (l1 ++ l2) = replCh target repl l1 ++ replCh target repl l2 := by
  intro l1 l2
  induction l1 with
  | nil => rfl
  | cons c r ih =>
    simp only [List.cons_append, replCh, List.append_eq, ih, List.append_assoc]

theorem escChain_nil : escChain [] = [] := rfl

theorem escChain_append (l1 l2 : List Char) :
    escChain (l1 ++ l2) = escChain l1 ++ escChain l2 := by
  unfold escChain
  rw [replCh_append, replCh_append, replCh_append, replCh_append, replCh_append]

theorem escChain_single (c : Char) : escChain [c] = esc1 c := by
  by_cases h1 : c = '\\'
  · subst h1; decide
  by_cases h2 : c = '"'
  · subst h2; decide
  by_cases h3 : c = '\n'
  · subst h3; decide
  by_cases h4 : c = '\t'
  · subst h4; decide
  by_cases h5 : c = '\r'
  · subst h5; decide
  · simp [escChain, replCh, esc1, h1, h2, h3, h4, h5]

theorem escChain_cons (c : Char) (l : List Char) :
    escChain (c :: l) = esc1 c ++ escChain l := by
  rw [show (c :: l) = [c] ++ l from rfl, escChain_append, escChain_single]

theorem quotedSpanGo_escaped_step (e : Char) (he : ¬e = '\n') (X : List Char)
    (line f : Nat) :
    quotedSpanGo '"' (f + 1) ('\\' :: e :: X) line =
      match quotedSpanGo '"' f X line with
      | .ok (v, r, l) => .ok (escTranslate e ++ v, r, l)
      | .error err => .error err := by
  simp only [quotedSpanGo]
  rw [if_neg (by decide), if_pos (by simp), if_neg he]

theorem quotedSpanGo_plain_step (c : Char) (hq : ¬c = '"') (hb : ¬c = '\\')
    (hn : ¬c = '\n') (X : List Char) (line f : Nat) :
    quotedSpanGo '"' (f + 1) (c :: X) line =
      match quotedSpanGo '"' f X line with
      | .ok (v, r, l) => .ok (c :: v, r, l)
      | .error err => .error err := by
  simp only [quotedSpanGo]
  rw [if_neg hq, if_neg (fun hand => hb hand.1), if_neg hn]

theorem quotedSpanGo_escChain : ∀ (v rest : List Char) (line fuel : Nat),
    (escChain v ++ '"' :: rest).length ≤ fuel →
    quotedSpanGo '"' fuel (escChain v ++ '"' :: rest) line = .ok (v, rest, line) := by
  intro v
  induction v with
  | nil =>
    intro rest line fuel hf
    rw [escChain_nil, List.nil_append] at hf ⊢
    rcases fuel with _ | f
    · simp at hf
    simp [quotedSpanGo]
  | cons c v' ih =>
    intro rest line fuel hf
    rw [escChain_cons, List.append_assoc] at hf ⊢
    by_cases h1 : c = '\\'
    · subst h1
      rw [show esc1 '\\' = ['\\', '\\'] from rfl] at hf ⊢
      rcases fuel with _ | f
      · simp at hf
      have hb : (escChain v' ++ '"' :: rest).length ≤ f := by
        simp only [List.cons_append, List.nil_append, List.length_cons,
          List.length_append] at hf ⊢
        omega
      rw [show (['\\', '\\'] ++ (escChain v' ++ '"' :: rest)) =
          '\\' :: '\\' :: (escChain v' ++ '"' :: rest) from rfl]
      rw [quotedSpanGo_escaped_step '\\' (by decide) _ line f, ih rest line f hb]
      rfl
    by_cases h2 : c = '"'
    · subst h2
      rw [show esc1 '"' = ['\\', '"'] from rfl] at hf ⊢
      rcases fuel with _ | f
      · simp at hf
      have hb : (escChain v' ++ '"' :: rest).length ≤ f := by
        simp only [List.cons_append, List.nil_append, List.length_cons,
          List.length_append] at hf ⊢
        omega
      rw [show (['\\', '"'] ++ (escChain v' ++ '"' :: rest)) =
          '\\' :: '"' :: (escChain v' ++ '"' :: rest) from rfl]
      rw [quotedSpanGo_escaped_step '"' (by decide) _ line f, ih rest line f hb]
      rfl
    by_cases h3 : c = '\n'
    · subst h3
      rw [show esc1 '\n' = ['\\', 'n'] from rfl] at hf ⊢
      rcases fuel with _ | f
      · simp at hf
      have hb : (escChain v' ++ '"' :: rest).length ≤ f := by
        simp only [List.cons_append, List.nil_append, List.length_cons,
          List.length_append] at hf ⊢
        omega
      rw [show (['\\', 'n'] ++ (escChain v' ++ '"' :: rest)) =
          '\\' :: 'n' :: (escChain v' ++ '"' :: rest) from rfl]
      rw [quotedSpanGo_escaped_step 'n' (by decide) _ line f, ih rest line f hb]
      rfl
    by_cases h4 : c = '\t'
    · subst h4
      rw [show esc1 '\t' = ['\\', 't'] from rfl] at hf ⊢
      rcases fuel with _ | f
      · simp at hf
      have hb : (escChain v' ++ '"' :: rest).length ≤ f := by
        simp only [List.cons_append, List.nil_append, List.length_cons,
          List.length_append] at hf ⊢
        omega
      rw [show (['\\', 't'] ++ (escChain v' ++ '"' :: rest)) =
          '\\' :: 't' :: (escChain v' ++ '"' :: rest) from rfl]
      rw [quotedSpanGo_escaped_step 't' (by decide) _ line f, ih rest line f hb]
      rfl
    by_cases h5 : c = '\r'
    · subst h5
      rw [show esc1 '\r' = ['\\', 'r'] from rfl] at hf ⊢
      rcases fuel with _ | f
      · simp at hf
      have hb : (escChain v' ++ '"' :: rest).length ≤ f := by
        simp only [List.cons_append, List.nil_append, List.length_cons,
          List.length_append] at hf ⊢
        omega
      rw [show (['\\', 'r'] ++ (escChain v' ++ '"' :: rest)) =
          '\\' :: 'r' :: (escChain v' ++ '"' :: rest) from rfl]
      rw [quotedSpanGo_escaped_step 'r' (by decide) _ line f, ih rest line f hb]
      rfl
    · have he1 : esc1 c = [c] := by
        unfold esc1
        rw [if_neg h1, if_neg h2, if_neg h3, if_neg h4, if_neg h5]
      rw [he1] at hf ⊢
      rcases fuel with _ | f
      · simp at hf
      have hb : (escChain v' ++ '"' :: rest).length ≤ f := by
        simp only [List.cons_append, List.nil_append, List.length_cons,
          List.length_append] at hf ⊢
        omega
      rw [show ([c] ++ (escChain v' ++ '"' :: rest)) =
          c :: (escChain v' ++ '"' :: rest) from rfl]
      rw [quotedSpanGo_plain_step c h2 h1 h3 _ line f, ih rest line f hb]

theorem unquotedSpan_clean : ∀ (v rest : List Char),
    (∀ c ∈ v, isSpecialChar c = false) →
    unquotedSpan (v ++ '\n' :: rest) = (v, false, '\n' :: rest) := by
  intro v
  induction v with
  | nil => intro rest _; rfl
  | cons d v' ih =>
    intro rest hcl
    have hd := special_false_parts (hcl d (List.mem_cons_self d v'))
    have hcl' : ∀ c ∈ v', isSpecialChar c = false :=
      fun c hc => hcl c (List.mem_cons_of_mem _ hc)
    rw [List.cons_append]
    unfold unquotedSpan
    rw [if_neg (not_or.mpr ⟨hd.2.2.1, hd.2.2.2.1⟩), if_neg hd.2.2.2.2.2.2.2.1]
    rw [ih rest hcl']

theorem trimRightWS_clean {v : List Char} (h : ∀ c ∈ v, isSpecialChar c = false) :
    trimRightWS v = v := by
  unfold trimRightWS
  rw [dropWhile_head_false, List.reverse_reverse]
  intro c hc
  have hm : c ∈ v.reverse := by
    rcases hrev : v.reverse with _ | ⟨x, r⟩
    · rw [hrev] at hc; cases hc
    · rw [hrev] at hc
      simp only [List.head?_cons, Option.some.injEq] at hc
      rw [← hc]
      exact List.mem_cons_self x r
  have hp := special_false_parts (h c (List.mem_reverse.mp hm))
  simp [Bool.or_eq_false_iff, beq_eq_false_iff_ne, hp.1, hp.2.1]

theorem lineFinish_newline (key v rest : List Char) (line : Nat) (em : Bool) :
    lineFinish key v true ⟨'\n' :: rest, line, em⟩ =
      ({ key := key, value := v, allowExpansion := true, error := none },
       ⟨'\n' :: rest, line, em⟩) := rfl

theorem parseValueBranch_clean (key v rest : List Char) (line : Nat) (em : Bool)
    (hcl : ∀ c ∈ v, isSpecialChar c = false) :
    parseValueBranch key ⟨v ++ '\n' :: rest, line, em⟩ =
      ({ key := key, value := v, allowExpansion := true, error := none },
       ⟨'\n' :: rest, line, em⟩) := by
  rcases v with _ | ⟨d, v'⟩
  · rw [List.nil_append]
    rfl
  · have hd := special_false_parts (hcl d (List.mem_cons_self d v'))
    rw [List.cons_append]
    unfold parseValueBranch
    rw [if_neg (show ¬peek ⟨d :: (v' ++ '\n' :: rest), line, em⟩ = '"' from hd.2.2.2.2.1),
        if_neg (show ¬peek ⟨d :: (v' ++ '\n' :: rest), line, em⟩ = '\'' from hd.2.2.2.2.2.1)]
    have hspan : parseUnquotedValue ⟨d :: (v' ++ '\n' :: rest), line, em⟩ =
        (d :: v', false, ⟨'\n' :: rest, line, em⟩) := by
      unfold parseUnquotedValue
      rw [show (d :: (v' ++ '\n' :: rest)) = (d :: v') ++ '\n' :: rest from rfl]
      rw [unquotedSpan_clean (d :: v') rest hcl]
      dsimp only
      rw [trimRightWS_clean hcl]
    rw [hspan]
    exact lineFinish_newline key (d :: v') rest line em

theorem parseValueBranch_quoted (key v rest : List Char) (line : Nat) (em : Bool) :
    parseValueBranch key ⟨quoteValue v ++ '\n' :: rest, line, em⟩ =
      ({ key := key, value := v, allowExpansion := true, error := none },
       ⟨'\n' :: rest, line, em⟩) := by
  have hsh : quoteValue v ++ '\n' :: rest = '"' :: (escChain v ++ '"' :: '\n' :: rest) := by
    simp [quoteValue]
  rw [hsh]
  unfold parseValueBranch
  rw [if_pos (show peek ⟨'"' :: (escChain v ++ '"' :: '\n' :: rest), line, em⟩ = '"' from rfl)]
  have hquoted : parseQuotedValue '"' ⟨'"' :: (escChain v ++ '"' :: '\n' :: rest), line, em⟩ =
      .ok (v, ⟨'\n' :: rest, line, em⟩) := by
    unfold parseQuotedValue
    have hadv : advanceTok ⟨'"' :: (escChain v ++ '"' :: '\n' :: rest), line, em⟩ =
        ⟨escChain v ++ '"' :: '\n' :: rest, line, em⟩ := rfl
    rw [hadv]
    unfold quotedSpan
    dsimp only
    rw [quotedSpanGo_escChain v ('\n' :: rest) line
      (escChain v ++ '"' :: '\n' :: rest).length le_rfl]
  rw [hquoted]
  exact lineFinish_newline key v rest line em

theorem keyStart_not_ws {c : Char} (h : isValidKeyStart c = true) :
    (c == ' ' || c == '\t') = false := by
  simp [Bool.or_eq_false_iff, beq_eq_false_iff_ne,
    keyStart_ne h (show isValidKeyStart ' ' = false from rfl),
    keyStart_ne h (show isValidKeyStart '\t' = false from rfl)]

theorem parseLine_newline (rest : List Char) (line : Nat) (em : Bool) :
    ParseLine ⟨'\n' :: rest, line, em⟩ =
      ({ key := [], value := [], allowExpansion := false, error := none },
       ⟨rest, line + 1, em⟩) := rfl


theorem parseLine_encPair_core (k V rest : List Char) (line : Nat) (em : Bool)
    (hk : validKey k = true) :
    ParseLine ⟨(k ++ '=' :: V) ++ '\n' :: rest, line, em⟩ =
      parseValueBranch k (skipWhitespace ⟨V ++ '\n' :: rest, line, em⟩) := by
  obtain ⟨c0, k', hkeq, hstart, hall⟩ := validKey_head hk
  have hshape : (k ++ '=' :: V) ++ '\n' :: rest = k ++ '=' :: (V ++ '\n' :: rest) := by
    simp
  rw [hshape]
  have hkeyhd : k ++ '=' :: (V ++ '\n' :: rest) =
      c0 :: (k' ++ '=' :: (V ++ '\n' :: rest)) := by
    rw [hkeq, List.cons_append]
  unfold ParseLine
  rw [show skipWhitespace ⟨k ++ '=' :: (V ++ '\n' :: rest), line, em⟩ =
      ⟨k ++ '=' :: (V ++ '\n' :: rest), line, em⟩
    from skipWhitespace_eq_self (by
      intro c hc
      rw [hkeyhd] at hc
      simp only [List.head?_cons, Option.some.injEq] at hc
      rw [← hc]
      exact keyStart_not_ws hstart)]
  rw [if_neg (by
    rw [hkeyhd]
    push_neg
    refine ⟨by simp, ?_, ?_, ?_⟩ <;>
      exact keyStart_ne hstart (by rfl))]
  unfold parseKeyStage
  have hexp : exportSkip ⟨k ++ '=' :: (V ++ '\n' :: rest), line, em⟩ =
      ⟨k ++ '=' :: (V ++ '\n' :: rest), line, em⟩ := by
    unfold exportSkip
    split
    · rename_i hcond
      rw [export_no_match k _ hk] at hcond
      exact absurd hcond.2 (by simp)
    · rfl
  rw [hexp]
  have hkeyparse : parseKey ⟨k ++ '=' :: (V ++ '\n' :: rest), line, em⟩ =
      .ok (k, ⟨'=' :: (V ++ '\n' :: rest), line, em⟩) := by
    unfold parseKey
    rw [if_pos (by
      show isValidKeyStart (peek _) = true
      unfold peek
      rw [hkeyhd]
      exact hstart)]
    obtain ⟨htake, hdrop⟩ := takeWhile_all_append isValidKeyChar k
      ('=' :: (V ++ '\n' :: rest))
      (validKey_all hk)
      (by
        intro c hc
        simp only [List.head?_cons, Option.some.injEq] at hc
        rw [← hc]
        rfl)
    dsimp only
    rw [htake, hdrop]
  rw [hkeyparse]
  show parseAfterKey k ⟨'=' :: (V ++ '\n' :: rest), line, em⟩ = _
  unfold parseAfterKey
  rw [if_neg (show ¬k.isEmpty = true from by rw [hkeq]; simp)]
  rw [show skipWhitespace ⟨'=' :: (V ++ '\n' :: rest), line, em⟩ =
      ⟨'=' :: (V ++ '\n' :: rest), line, em⟩
    from skipWhitespace_eq_self (by
      intro c hc
      simp only [List.head?_cons, Option.some.injEq] at hc
      rw [← hc]
      rfl)]
  rw [if_neg (show ¬(peek ⟨'=' :: (V ++ '\n' :: rest), line, em⟩ ≠ '=') from
    fun hne => hne rfl)]
  rfl

theorem parseLine_encPair (k v rest : List Char) (line : Nat) (em : Bool)
    (hk : validKey k = true) :
    ParseLine ⟨encPair (k, v) ++ '\n' :: rest, line, em⟩ =
      ({ key := k, value := v, allowExpansion := true, error := none },
       ⟨'\n' :: rest, line, em⟩) := by
  have hshape : encPair (k, v) = k ++ '=' :: (if needsQuoting v then quoteValue v else v) :=
    rfl
  rw [hshape, parseLine_encPair_core k _ rest line em hk]
  rcases hq : needsQuoting v with _ | _
  · rw [if_neg (by simp)]
    have hcl : ∀ c ∈ v, isSpecialChar c = false := needsQuoting_false_forall hq
    rw [show skipWhitespace ⟨v ++ '\n' :: rest, line, em⟩ = ⟨v ++ '\n' :: rest, line, em⟩
      from skipWhitespace_eq_self (by
        intro c hc
        rcases v with _ | ⟨d, v'⟩
        · simp only [List.nil_append, List.head?_cons, Option.some.injEq] at hc
          rw [← hc]
          rfl
        · rw [List.cons_append] at hc
          simp only [List.head?_cons, Option.some.injEq] at hc
          rw [← hc]
          have hp := special_false_parts (hcl d (List.mem_cons_self d v'))
          simp [Bool.or_eq_false_iff, beq_eq_false_iff_ne, hp.1, hp.2.1])]
    exact parseValueBranch_clean k v rest line em hcl
  · rw [if_pos rfl]
    rw [show skipWhitespace ⟨quoteValue v ++ '\n' :: rest, line, em⟩ =
        ⟨quoteValue v ++ '\n' :: rest, line, em⟩
      from skipWhitespace_eq_self (by
        intro c hc
        rw [show quoteValue v ++ '\n' :: rest =
            '"' :: (escChain v ++ '"' :: '\n' :: rest) from by simp [quoteValue]] at hc
        simp only [List.head?_cons, Option.some.injEq] at hc
        rw [← hc]
        rfl)]
    exact parseValueBranch_quoted k v rest line em

theorem noDollar_any {v : List Char} (h : noDollar v = true) :
    v.any (fun c => c == '$') = false := by
  rcases hb : v.any (fun c => c == '$') with _ | _
  · rfl
  · exfalso
    obtain ⟨c, hc, hcc⟩ := List.any_eq_true.mp hb
    have hall := (List.all_eq_true.mp h) c hc
    rw [hcc] at hall
    exact absurd hall (by decide)

theorem parseLoop_encAll : ∀ (ps acc : EnvMap) (line : Nat) (em : Bool) (fuel : Nat),
    (encAll ps).length < fuel →
    (∀ p ∈ ps, validKey p.1 = true) →
    (∀ p ∈ ps, noDollar p.2 = true) →
    parseLoop acc fuel ⟨encAll ps, line, em⟩ =
      .ok (ps.foldl (fun e p => insertEnv e p.1 p.2) acc) := by
  intro ps
  induction ps with
  | nil =>
    intro acc line em fuel hf _ _
    rcases fuel with _ | f
    · omega
    simp [parseLoop, encAll]
  | cons p ps' ih =>
    intro acc line em fuel hf hk hd
    rcases p with ⟨k, v⟩
    have hkv : validKey k = true := hk (k, v) (List.mem_cons_self _ _)
    have hdv : noDollar v = true := hd (k, v) (List.mem_cons_self _ _)
    have hk' : ∀ q ∈ ps', validKey q.1 = true := fun q hq => hk q (List.mem_cons_of_mem _ hq)
    have hd' : ∀ q ∈ ps', noDollar q.2 = true := fun q hq => hd q (List.mem_cons_of_mem _ hq)
    have hlen : (encAll ((k, v) :: ps')).length =
        (encPair (k, v)).length + 1 + (encAll ps').length := by
      simp [encAll]
      omega
    have hpos : 1 ≤ (encPair (k, v)).length := by
      rcases hpe : encPair (k, v) with _ | ⟨c, r⟩
      · exact absurd hpe (encPair_ne_nil (k, v))
      · simp
    rcases fuel with _ | f
    · omega
    show parseLoop acc (f + 1) ⟨encAll ((k, v) :: ps'), line, em⟩ = _
    rw [show (encAll ((k, v) :: ps') : List Char) = encPair (k, v) ++ '\n' :: encAll ps'
      from rfl]
    unfold parseLoop
    rw [if_neg (by
      intro hemp
      have : encPair (k, v) ++ '\n' :: encAll ps' = [] := by
        simpa using hemp
      rcases hpe : encPair (k, v) with _ | ⟨c, r⟩
      · exact encPair_ne_nil (k, v) hpe
      · rw [hpe] at this
        cases this)]
    rw [parseLine_encPair k v (encAll ps') line em hkv]
    dsimp only
    rw [if_neg (by
      obtain ⟨c0, k2, hkeq, _, _⟩ := validKey_head hkv
      rw [hkeq]
      simp)]
    rw [if_neg (by
      intro hcond
      rw [noDollar_any hdv] at hcond
      exact absurd hcond.2 (by simp))]
    rcases f with _ | f2
    · exfalso
      rw [hlen] at hf
      omega
    show parseLoop (insertEnv acc k v) (f2 + 1) ⟨'\n' :: encAll ps', line, em⟩ = _
    unfold parseLoop
    rw [if_neg (by simp)]
    rw [parseLine_newline (encAll ps') line em]
    dsimp only
    rw [if_pos (show ([] : List Char).isEmpty = true from rfl)]
    rw [ih (insertEnv acc k v) (line + 1) em f2 (by rw [hlen] at hf; omega) hk' hd']
    rfl

/-- C2, counterexample to the literal claim.  Both mappings have distinct
keys and values free of control characters, yet parsing the serialized form
does not reproduce them: a value containing a dollar sign (`$A` for key `B`)
is re-expanded at parse time against the earlier entries, so `B` comes back
as `x`, not `$A`; and a key that is not a valid identifier (`1`) serializes
to a line the parser rejects outright. -/
theorem roundtrip_counterexample :
    (([(str "A", str "x"), (str "B", str "$A")] : EnvMap).map Prod.fst).Nodup ∧
    (∀ p ∈ ([(str "A", str "x"), (str "B", str "$A")] : EnvMap), noCtl p.2 = true) ∧
    Parse (serializeEnv [(str "A", str "x"), (str "B", str "$A")]) =
      .ok [(str "A", str "x"), (str "B", str "x")] ∧
    (∀ p ∈ ([(str "1", str "v")] : EnvMap), noCtl p.2 = true) ∧
    Parse (serializeEnv [(str "1", str "v")]) = .error (.invalidKey 1) := by
  decide

/-- C2, corrected.  Round trip for well-formed mappings: if the keys are
distinct valid identifiers and no value contains a dollar sign, then parsing
the serialized file succeeds with exactly the entries in ascending key
order, and every lookup agrees with the original mapping.  (Control
characters in values need no restriction: quoting escapes newlines, tabs
and carriage returns, and other low bytes pass through both directions
unchanged.) -/
theorem roundtrip_of_wellformed (env : EnvMap)
    (hnd : (env.map Prod.fst).Nodup)
    (hk : ∀ p ∈ env, validKey p.1 = true)
    (hd : ∀ p ∈ env, noDollar p.2 = true) :
    Parse (serializeEnv env) = .ok (sortPairs env) ∧
      ∀ k, lookupEnv (sortPairs env) k = lookupEnv env k := by
  have hperm : (sortPairs env).Perm env := List.perm_insertionSort keyLe env
  have hndS : ((sortPairs env).map Prod.fst).Nodup :=
    ((hperm.map Prod.fst).nodup_iff).mpr hnd
  have hkS : ∀ p ∈ sortPairs env, validKey p.1 = true :=
    fun p hp => hk p (hperm.mem_iff.mp hp)
  have hdS : ∀ p ∈ sortPairs env, noDollar p.2 = true :=
    fun p hp => hd p (hperm.mem_iff.mp hp)
  constructor
  · unfold Parse NewTokenizer
    rw [serializeEnv_eq_encAll]
    rw [parseLoop_encAll (sortPairs env) [] 1 true _ (by omega) hkS hdS]
    rw [foldl_insertEnv_nodup (sortPairs env) [] (by simpa using hndS)]
    rw [List.nil_append]
  · intro k
    exact lookupEnv_perm hperm hndS k

theorem roundtrip_of_wellformed_witness :
    Parse (serializeEnv [(str "B", str "b 1"), (str "A", str "x")]) =
      .ok (sortPairs [(str "B", str "b 1"), (str "A", str "x")]) ∧
      ∀ k, lookupEnv (sortPairs [(str "B", str "b 1"), (str "A", str "x")]) k =
        lookupEnv [(str "B", str "b 1"), (str "A", str "x")] k :=
  roundtrip_of_wellformed [(str "B", str "b 1"), (str "A", str "x")]
    (by decide) (by decide) (by decide)

end Dotenv
